import Mathlib

/-!
Verification of the LiteDB dual-backend database editor core against its
natural-language specification.  The definitions below are shallow embeddings
of the TypeScript source: the DatabaseView component (two revisions,
`src/unnamed/part_001` and `src/unnamed/part_002`), the SchemaVisualizer
module (`src/src/components/SchemaVisualizer/index.tsx`, which contains two
copies of `calculateLayout`), and — where the repository ships only the
callers — models of the `dbService` / `pgService` operations taken from the
specification text (each such definition is marked `Modelled from the spec:`).
-/

namespace LiteDB

/-- Single-quote character, used by the SQLite delete branch to quote row
identifiers into the SQL text (code point 39). -/
def sqChar : Char := Char.ofNat 39

/-- One-character string holding the single quote. -/
def sq : String := String.singleton sqChar

/-- Backend-native cell value as described by the spec data model (§3
RowSnapshot): integer, real, text, boolean, null, binary. -/
inductive SqlValue where
  | intV (i : Int)
  | realV (r : Rat)
  | textV (s : String)
  | boolV (b : Bool)
  | nullV
  | blobV (bs : List Nat)
deriving DecidableEq

/-- A row snapshot: ordered mapping of column name to value. -/
abbrev Row : Type := List (String × SqlValue)

/-! ## Row deletion (claim C1)

`handleUpdateRow`, SQLite branch (src/unnamed/part_001 line 248 and the
textually identical src/unnamed/part_002 line 233):

  const sql = `DELETE FROM ${selectedTable} WHERE ${newRow.primaryKeyColumn}
    IN (${newRow.rowIds.map(id => `'${id}'`).join(',')})`;
-/

/-- The comma separator used by the delete branch. -/
def commaStr : String := ","

/-- Concrete table name used in witnesses. -/
def tblUsers : String := "users"

/-- Concrete primary-key column name used in witnesses. -/
def colId : String := "id"

/-- Concrete numeric row identifier (as the string the grid passes). -/
def idOne : String := "1"

/-- Concrete numeric row identifier (as the string the grid passes). -/
def idTwo : String := "2"

/-- JavaScript `Array.prototype.join(",")`. -/
def joinComma : List String → String
  | [] => ""
  | [x] => x
  | x :: y :: xs => x ++ commaStr ++ joinComma (y :: xs)

/-- The SQL text built by the SQLite delete branch of `handleUpdateRow`:
each row identifier is spliced into the text wrapped in single quotes. -/
def sqliteDeleteSql (table pk : String) (rowIds : List String) : String :=
  "DELETE FROM " ++ table ++ " WHERE " ++ pk ++ " IN (" ++
    joinComma (rowIds.map (fun id => sq ++ id ++ sq)) ++ ")"

/-- Modelled from the spec: `pgService.deleteRows` is not under `src/` (only
its call sites are).  §4.4: "Batches a single DELETE with a membership
predicate over `primaryKeyColumn`; identifiers are passed as typed
parameters, never string-interpolated."  The model returns the statement
text (with positional placeholders, one per identifier) together with the
typed parameter vector. -/
def pgDeleteRows (table pk : String) (ids : List SqlValue) :
    String × List SqlValue :=
  ("DELETE FROM " ++ table ++ " WHERE " ++ pk ++ " IN (" ++
      joinComma ((List.range ids.length).map
        (fun i => "$" ++ toString (i + 1))) ++ ")",
    ids)

/-! ## handleUpdateRow (claims C1, C8)

src/unnamed/part_001 lines 227-256; src/unnamed/part_002 lines 212-241 are
textually identical.  The backend services are abstracted as an `exec`
oracle; the function returns the boolean result together with the list of
backend calls it issued, so "issues no SQL" is expressible. -/

/-- The second argument of `handleUpdateRow`: either a replacement row or a
delete request (the JS `isDeleteOperation` runtime check becomes the
constructor discrimination). -/
inductive NewRowArg where
  | row (r : Row)
  | deleteOp (rowIds : List String) (primaryKeyColumn : String)

/-- A call issued against one of the two backends. -/
inductive DbCall where
  | pgDelete (table pk : String) (ids : List String)
  | pgUpdate (table : String) (before after : Row)
  | sqliteBatch (sqls : List String)
  | sqliteUpdate (table : String) (before after : Row)
deriving DecidableEq

/-- Embedding of `handleUpdateRow` (part_001 copy; part_002 is identical).
`exec` abstracts the backend services' success result. -/
def handleUpdateRow (exec : DbCall → Bool) (selectedTable : String)
    (isPostgresActive : Bool) (oldRow : Option Row) (newRow : NewRowArg) :
    Bool × List DbCall :=
  if selectedTable.isEmpty then (false, [])
  else if isPostgresActive then
    match newRow with
    | NewRowArg.deleteOp rowIds pk =>
        let c := DbCall.pgDelete selectedTable pk rowIds
        (exec c, [c])
    | NewRowArg.row r =>
        match oldRow with
        | some o =>
            let c := DbCall.pgUpdate selectedTable o r
            (exec c, [c])
        | none => (false, [])
  else
    match newRow with
    | NewRowArg.deleteOp rowIds pk =>
        let c := DbCall.sqliteBatch [sqliteDeleteSql selectedTable pk rowIds]
        (exec c, [c])
    | NewRowArg.row r =>
        match oldRow with
        | some o =>
            let c := DbCall.sqliteUpdate selectedTable o r
            (exec c, [c])
        | none => (false, [])

/-- Embedding of the `handleUpdateRow` copy in src/unnamed/part_002
(lines 212-241), textually identical to the part_001 copy. -/
def handleUpdateRow2 (exec : DbCall → Bool) (selectedTable : String)
    (isPostgresActive : Bool) (oldRow : Option Row) (newRow : NewRowArg) :
    Bool × List DbCall :=
  if selectedTable.isEmpty then (false, [])
  else if isPostgresActive then
    match newRow with
    | NewRowArg.deleteOp rowIds pk =>
        let c := DbCall.pgDelete selectedTable pk rowIds
        (exec c, [c])
    | NewRowArg.row r =>
        match oldRow with
        | some o =>
            let c := DbCall.pgUpdate selectedTable o r
            (exec c, [c])
        | none => (false, [])
  else
    match newRow with
    | NewRowArg.deleteOp rowIds pk =>
        let c := DbCall.sqliteBatch [sqliteDeleteSql selectedTable pk rowIds]
        (exec c, [c])
    | NewRowArg.row r =>
        match oldRow with
        | some o =>
            let c := DbCall.sqliteUpdate selectedTable o r
            (exec c, [c])
        | none => (false, [])

/-! Helper facts for C1. -/

/-- A member of the joined, quoted identifier list occurs quoted inside the
joined text. -/
theorem quoted_mem_joinComma (ids : List String) (id : String)
    (h : id ∈ ids) :
    (sq ++ id ++ sq).data <:+:
      (joinComma (ids.map (fun x => sq ++ x ++ sq))).data := by
  induction ids with
  | nil => cases h
  | cons hd tl ih =>
      cases tl with
      | nil =>
          cases h with
          | head => simp [joinComma]
          | tail _ h2 => cases h2
      | cons b bs =>
          cases h with
          | head =>
              have hpre : (sq ++ id ++ sq).data <+:
                  (sq ++ id ++ sq).data ++
                    (commaStr.data ++ (joinComma ((b :: bs).map
                      (fun x => sq ++ x ++ sq))).data) :=
                List.prefix_append _ _
              simpa [joinComma, commaStr, String.data_append,
                List.append_assoc] using hpre.isInfix
          | tail _ h2 =>
              have hinf := ih h2
              have hsuf : (joinComma ((b :: bs).map
                    (fun x => sq ++ x ++ sq))).data <:+:
                  ((sq ++ hd ++ sq).data ++ commaStr.data) ++
                    (joinComma ((b :: bs).map
                      (fun x => sq ++ x ++ sq))).data :=
                (List.suffix_append _ _).isInfix
              simpa [joinComma, commaStr, String.data_append,
                List.append_assoc] using hinf.trans hsuf

/-- An infix of `m` is an infix of `pre ++ m ++ post`. -/
theorem infix_of_middle {l m : List Char} (pre post : List Char)
    (h : l <:+: m) : l <:+: pre ++ m ++ post :=
  List.IsInfix.trans h (List.infix_append pre m post)

/-- Claim C1, counterexample: on the SQLite path of the delete branch of
`handleUpdateRow`, the numeric identifier 1 is string-interpolated into the
SQL text quoted as a text literal, so the claim as stated fails. -/
theorem sqliteDelete_interpolates_counterexample :
    sqliteDeleteSql tblUsers colId [idOne, idTwo] =
      "DELETE FROM users WHERE id IN (" ++ sq ++ "1" ++ sq ++ commaStr ++
        sq ++ "2" ++ sq ++ ")" ∧
    (sq ++ idOne ++ sq).data <:+:
      (sqliteDeleteSql tblUsers colId [idOne, idTwo]).data := by
  constructor
  · decide
  · decide

/-- Claim C1, amended: on the PostgreSQL path the row identifiers are passed
to the backend as the typed parameter vector, unchanged, and the statement
text depends only on the identifier count (never on the identifier values);
on the SQLite path, by contrast, every row identifier is string-interpolated
into the SQL text wrapped in single quotes. -/
theorem deleteRows_parameterization_amended (table pk : String) :
    (∀ ids : List SqlValue, (pgDeleteRows table pk ids).2 = ids) ∧
    (∀ ids ids2 : List SqlValue, ids.length = ids2.length →
      (pgDeleteRows table pk ids).1 = (pgDeleteRows table pk ids2).1) ∧
    (∀ (ids : List String) (id : String), id ∈ ids →
      (sq ++ id ++ sq).data <:+: (sqliteDeleteSql table pk ids).data) := by
  refine ⟨fun ids => rfl, fun ids ids2 hlen => ?_, fun ids id hid => ?_⟩
  · simp [pgDeleteRows, hlen]
  · have hmid := quoted_mem_joinComma ids id hid
    have := infix_of_middle
      (("DELETE FROM " ++ table ++ " WHERE " ++ pk ++ " IN (").data)
      (")".data) hmid
    simpa [sqliteDeleteSql, String.data_append, List.append_assoc] using this

/-- Witness for the amended C1 theorem at concrete inputs. -/
theorem deleteRows_parameterization_amended_witness :
    (idOne ∈ [idOne, idTwo]) ∧
    (sq ++ idOne ++ sq).data <:+:
      (sqliteDeleteSql tblUsers colId [idOne, idTwo]).data := by
  refine ⟨by decide, ?_⟩
  exact (deleteRows_parameterization_amended tblUsers colId).2.2
    [idOne, idTwo] idOne (by decide)

/-- Claim C8: when no table is selected, or when the request is a row update
with a null prior-row snapshot, both copies of `handleUpdateRow` return
`false` and issue no backend call. -/
theorem handleUpdateRow_guard_no_sql (exec : DbCall → Bool)
    (selectedTable : String) (isPg : Bool) (oldRow : Option Row)
    (newRow : NewRowArg) :
    (selectedTable.isEmpty = true →
      handleUpdateRow exec selectedTable isPg oldRow newRow = (false, []) ∧
      handleUpdateRow2 exec selectedTable isPg oldRow newRow = (false, [])) ∧
    (∀ r : Row, newRow = NewRowArg.row r → oldRow = none →
      handleUpdateRow exec selectedTable isPg oldRow newRow = (false, []) ∧
      handleUpdateRow2 exec selectedTable isPg oldRow newRow = (false, [])) := by
  constructor
  · intro hempty
    constructor <;> simp [handleUpdateRow, handleUpdateRow2, hempty]
  · intro r hrow hold
    subst hrow; subst hold
    constructor <;>
      · simp only [handleUpdateRow, handleUpdateRow2]
        by_cases h : selectedTable.isEmpty <;> by_cases hpg : isPg <;>
          simp [h, hpg]

/-- Witness for C8 at concrete inputs (empty selected table, and a row
update with no prior snapshot). -/
theorem handleUpdateRow_guard_no_sql_witness :
    handleUpdateRow (fun _ => true) "" false none (NewRowArg.row []) =
      (false, []) ∧
    handleUpdateRow2 (fun _ => true) tblUsers false none
      (NewRowArg.row []) = (false, []) := by
  constructor
  · exact ((handleUpdateRow_guard_no_sql (fun _ => true) "" false none
      (NewRowArg.row [])).1 (by decide)).1
  · exact ((handleUpdateRow_guard_no_sql (fun _ => true) tblUsers false none
      (NewRowArg.row [])).2 [] rfl rfl).2

/-! ## Backend dispatch (claim C4)

DatabaseView, src/unnamed/part_001 lines 64-72 and 112-134 (part_002 is
identical): the active-backend flags and the stable accessor callbacks that
the schema visualizer consumes. -/

/-- Column descriptor as consumed by the visualizer (fields used by the
layout and the TableNode renderer). -/
structure ColumnInfo where
  name : String
  type : String
  notnull : Nat
  pk : Nat
deriving DecidableEq

/-- Foreign-key descriptor: `from` column, referenced `table`, referenced
`to` column. -/
structure ForeignKeyInfo where
  «from» : String
  table : String
  «to» : String
deriving DecidableEq

/-- Index descriptor. -/
structure IndexInfo where
  name : String
  unique : Bool
  columns : List String
deriving DecidableEq

/-- Table list entry. -/
structure TableInfo where
  name : String
deriving DecidableEq

/-- One backend (the SQLite hook family or the PostgreSQL hook family):
its table list and its three schema accessors. -/
structure Backend where
  tables : List TableInfo
  getTableColumns : String → List ColumnInfo
  getForeignKeys : String → List ForeignKeyInfo
  getIndexes : String → List IndexInfo

/-- The DatabaseView state feeding the dispatch logic: `isConnected` from
`usePostgres`, `isLoaded` from `useDatabase`, and the two hook families. -/
structure DbEnv where
  isConnected : Bool
  isLoaded : Bool
  pg : Backend
  sqlite : Backend

/-- `const isPostgresActive = isConnected;`. -/
def isPostgresActive (e : DbEnv) : Bool := e.isConnected

/-- `const isSqliteActive = isLoaded && !isPostgresActive;`. -/
def isSqliteActive (e : DbEnv) : Bool := e.isLoaded && !(isPostgresActive e)

/-- `const tables = isPostgresActive ? postgresTables : sqliteTables;`. -/
def tablesOf (e : DbEnv) : List TableInfo :=
  if isPostgresActive e then e.pg.tables else e.sqlite.tables

/-- `getTableColumnsStable` (dispatches on `isPostgresActiveRef.current`,
which holds the current `isPostgresActive`). -/
def getTableColumnsStable (e : DbEnv) (tableName : String) :
    List ColumnInfo :=
  if isPostgresActive e then e.pg.getTableColumns tableName
  else e.sqlite.getTableColumns tableName

/-- `getForeignKeysStable`. -/
def getForeignKeysStable (e : DbEnv) (tableName : String) :
    List ForeignKeyInfo :=
  if isPostgresActive e then e.pg.getForeignKeys tableName
  else e.sqlite.getForeignKeys tableName

/-- `getIndexesStable`. -/
def getIndexesStable (e : DbEnv) (tableName : String) : List IndexInfo :=
  if isPostgresActive e then e.pg.getIndexes tableName
  else e.sqlite.getIndexes tableName

/-- The single backend selected by the active flag. -/
def activeBackend (e : DbEnv) : Backend :=
  if isPostgresActive e then e.pg else e.sqlite

/-- Claim C4: the two liveness flags are mutually exclusive, the networked
backend is selected exactly when the PostgreSQL connection is active, and
all four consumers (table list and the three stable schema accessors) draw
from that one selected backend — never a mixture. -/
theorem accessor_dispatch_single_backend (e : DbEnv) :
    ((isPostgresActive e && isSqliteActive e) = false) ∧
    (isPostgresActive e = true ↔ e.isConnected = true) ∧
    (activeBackend e = if isPostgresActive e then e.pg else e.sqlite) ∧
    tablesOf e = (activeBackend e).tables ∧
    (∀ t, getTableColumnsStable e t = (activeBackend e).getTableColumns t) ∧
    (∀ t, getForeignKeysStable e t = (activeBackend e).getForeignKeys t) ∧
    (∀ t, getIndexesStable e t = (activeBackend e).getIndexes t) := by
  refine ⟨?_, Iff.rfl, rfl, ?_, fun t => ?_, fun t => ?_, fun t => ?_⟩ <;>
    by_cases h : isPostgresActive e <;>
      simp [isSqliteActive, tablesOf, activeBackend, getTableColumnsStable,
        getForeignKeysStable, getIndexesStable, h]

/-- A concrete environment for the C4 witness: SQLite file loaded, no
PostgreSQL connection. -/
def demoEnv : DbEnv :=
  { isConnected := false
    isLoaded := true
    pg := { tables := [], getTableColumns := fun _ => [],
            getForeignKeys := fun _ => [], getIndexes := fun _ => [] }
    sqlite := { tables := [{ name := tblUsers }],
                getTableColumns := fun _ => [],
                getForeignKeys := fun _ => [], getIndexes := fun _ => [] } }

/-- Witness for C4 at a concrete environment. -/
theorem accessor_dispatch_single_backend_witness :
    ((isPostgresActive demoEnv && isSqliteActive demoEnv) = false) ∧
    tablesOf demoEnv = (activeBackend demoEnv).tables := by
  have h := accessor_dispatch_single_backend demoEnv
  exact ⟨h.1, h.2.2.2.1⟩

/-! ## Save path (claim C5)

`handleSaveDatabase` is in src (part_001 lines 258-308, part_002 identical);
`dbService.exportDatabase` (the spec's `readAll`) is not under `src/` and is
modelled from the spec. -/

/-- The embedded session's observable state for the export operation. -/
structure EmbeddedDb where
  hasChanges : Bool
  payload : List Nat
deriving DecidableEq

/-- Modelled from the spec: `dbService.exportDatabase` embodies `readAll()`
(§4.1): "serializes current in-memory state for persistence; fails only if
no changes exist to export (signaled, not a hard error)".  The failure
signal is `none`. -/
def exportDatabase (db : EmbeddedDb) : Option (List Nat) :=
  if db.hasChanges then some db.payload else none

/-- Observable effects of `handleSaveDatabase`. -/
inductive SaveEffect where
  | toastInfo
  | toastError
  | writeFile (path : String) (data : List Nat)
  | toastSuccess
deriving DecidableEq

/-- Embedding of `handleSaveDatabase` (part_001 lines 258-308): the effect
trace of one invocation.  `writeOk` abstracts the result of
`window.electron.saveDatabase`. -/
def handleSaveDatabase (isPg : Bool) (db : EmbeddedDb)
    (currentFilePath : Option String) (hasElectron : Bool)
    (writeOk : Bool) : List SaveEffect :=
  if isPg then [SaveEffect.toastInfo]
  else
    match exportDatabase db with
    | none => [SaveEffect.toastError]
    | some data =>
        match currentFilePath, hasElectron with
        | none, _ => [SaveEffect.toastError]
        | some _, false => [SaveEffect.toastError]
        | some path, true =>
            if writeOk then [SaveEffect.writeFile path data,
                             SaveEffect.toastSuccess]
            else [SaveEffect.writeFile path data, SaveEffect.toastError]

/-- The file writes contained in an effect trace. -/
def saveWrites (effs : List SaveEffect) : List SaveEffect :=
  effs.filter (fun e =>
    match e with
    | SaveEffect.writeFile _ _ => true
    | _ => false)

/-- Claim C5: the export operation fails exactly when the embedded session
has no changes, and on that signal the save path short-circuits — the
resulting trace contains no file write. -/
theorem exportDatabase_signal_short_circuits (db : EmbeddedDb) :
    (exportDatabase db = none ↔ db.hasChanges = false) ∧
    (∀ (path : Option String) (hasElectron writeOk : Bool),
      exportDatabase db = none →
      saveWrites (handleSaveDatabase false db path hasElectron writeOk)
        = []) := by
  constructor
  · by_cases h : db.hasChanges <;> simp [exportDatabase, h]
  · intro path hasElectron writeOk hnone
    simp [handleSaveDatabase, hnone, saveWrites]

/-- Witness for C5: an unchanged embedded session at a concrete state. -/
theorem exportDatabase_signal_short_circuits_witness :
    exportDatabase { hasChanges := false, payload := [7] } = none ∧
    saveWrites (handleSaveDatabase false
      { hasChanges := false, payload := [7] } (some tblUsers) true true)
      = [] := by
  have h := exportDatabase_signal_short_circuits
    { hasChanges := false, payload := [7] }
  have hnone : exportDatabase { hasChanges := false, payload := [7] }
      = none := h.1.mpr rfl
  exact ⟨hnone, h.2 (some tblUsers) true true hnone⟩

/-! ## Atomic batch execution (claim C6)

`executeBatchOperations` lives in `dbService`, which is not under `src/`
(part_001 line 249 is a call site).  The atomic mode is modelled from the
spec (§4.3). -/

/-- Events observable at the backend during a batch run. -/
inductive BatchEv where
  | beginTx
  | execStmt (i : Nat)
  | commitTx
  | rollbackTx
deriving DecidableEq

/-- Runs statements in source order starting at index `i`; stops at the
first failure.  Returns the executed-statement trace and the resulting
state (`none` after a failure). -/
def runStmts {δ : Type} (stmts : List (δ → Option δ)) (i : Nat) (db : δ) :
    List BatchEv × Option δ :=
  match stmts with
  | [] => ([], some db)
  | s :: rest =>
      match s db with
      | none => ([BatchEv.execStmt i], none)
      | some db2 =>
          let r := runStmts rest (i + 1) db2
          (BatchEv.execStmt i :: r.1, r.2)

/-- Modelled from the spec: atomic batch execution (§4.3): "begin an
explicit transaction before the first statement; execute statements in
source order; on the first failure, abort immediately and roll back — no
later statements run, no earlier effects survive".  Returns the event
trace, the visible database state after the batch, and the overall success
flag. -/
def executeAtomic {δ : Type} (stmts : List (δ → Option δ)) (db0 : δ) :
    List BatchEv × δ × Bool :=
  let r := runStmts stmts 0 db0
  match r.2 with
  | some dbE => (BatchEv.beginTx :: r.1 ++ [BatchEv.commitTx], dbE, true)
  | none => (BatchEv.beginTx :: r.1 ++ [BatchEv.rollbackTx], db0, false)

/-- Sequential effect of a statement prefix (no transaction). -/
def execPrefix {δ : Type} (stmts : List (δ → Option δ)) (db : δ) :
    Option δ :=
  match stmts with
  | [] => some db
  | s :: rest =>
      match s db with
      | none => none
      | some db2 => execPrefix rest db2

/-- The trace of a run that fails at relative index `k` (with `i` the index
of the first statement) is the statements `i, i+1, …, i+k` in order. -/
theorem runStmts_fail_trace {δ : Type} :
    ∀ (k : Nat) (stmts : List (δ → Option δ)) (i : Nat) (db : δ) (dbk : δ)
      (sk : δ → Option δ),
      execPrefix (stmts.take k) db = some dbk →
      stmts.get? k = some sk → sk dbk = none →
      runStmts stmts i db =
        ((List.range (k + 1)).map (fun j => BatchEv.execStmt (i + j)),
          none) := by
  intro k
  induction k with
  | zero =>
      intro stmts i db dbk sk hpre hget hfail
      cases stmts with
      | nil => simp at hget
      | cons s rest =>
          simp only [List.take_zero, execPrefix] at hpre
          cases hpre
          simp only [List.get?_cons_zero, Option.some.injEq] at hget
          subst hget
          simp [runStmts, hfail, List.range_succ]
  | succ k ih =>
      intro stmts i db dbk sk hpre hget hfail
      cases stmts with
      | nil => simp at hget
      | cons s rest =>
          simp only [List.take_cons, execPrefix] at hpre
          cases hs : s db with
          | none => simp [hs] at hpre
          | some db2 =>
              rw [hs] at hpre
              simp only [List.get?_cons_succ] at hget
              have hrec := ih rest (i + 1) db2 dbk sk hpre hget hfail
              have hlist : BatchEv.execStmt i ::
                  (List.range (k + 1)).map
                    (fun j => BatchEv.execStmt (i + 1 + j)) =
                  (List.range (k + 1 + 1)).map
                    (fun j => BatchEv.execStmt (i + j)) := by
                rw [List.range_succ_eq_map (k + 1)]
                simp only [List.map_cons, List.map_map, Function.comp]
                refine congrArg₂ List.cons
                  (congrArg BatchEv.execStmt (Nat.add_zero i).symm)
                  (List.map_congr_left fun j hj => ?_)
                exact congrArg BatchEv.execStmt (by omega)
              simp [runStmts, hs, hrec, hlist]

/-- Claim C6: in atomic mode with the first failure at position `k`, the
backend sees an explicit transaction begin before the first statement, the
statements `0..k` in source order, no statement after `k`, and a rollback;
the visible database state equals the initial state, and the batch reports
failure. -/
theorem atomic_batch_rollback_semantics {δ : Type}
    (stmts : List (δ → Option δ)) (db0 : δ) (k : Nat) (dbk : δ)
    (sk : δ → Option δ)
    (hpre : execPrefix (stmts.take k) db0 = some dbk)
    (hget : stmts.get? k = some sk) (hfail : sk dbk = none) :
    executeAtomic stmts db0 =
      (BatchEv.beginTx ::
        (List.range (k + 1)).map BatchEv.execStmt ++ [BatchEv.rollbackTx],
        db0, false) := by
  have h := runStmts_fail_trace k stmts 0 db0 dbk sk hpre hget hfail
  simp [executeAtomic, h, Nat.zero_add]

/-- Witness for C6: three statements over a counter database, the second of
which fails. -/
theorem atomic_batch_rollback_semantics_witness :
    executeAtomic
      [fun n : Nat => some (n + 1), fun _ => none,
        fun n : Nat => some (n * 2)] 5 =
      (BatchEv.beginTx ::
        (List.range 2).map BatchEv.execStmt ++ [BatchEv.rollbackTx],
        5, false) :=
  atomic_batch_rollback_semantics
    [fun n : Nat => some (n + 1), fun _ => none,
      fun n : Nat => some (n * 2)] 5 1 6 (fun _ => none) rfl rfl rfl

/-! ## Row mutation reconciler (claim C7)

`dbService.updateRow` / `pgService.updateRow` are not under `src/` (only
their call sites in `handleUpdateRow` are); the reconciler is modelled from
the spec (§4.4 update contract). -/

/-- A WHERE-clause comparison for one column: plain value equality, or the
explicit NULL-safe form used for null-valued columns. -/
inductive WhereOp where
  | eqTo (v : SqlValue)
  | isNull
deriving DecidableEq

/-- Modelled from the spec: the SET clause of the generated UPDATE contains
"only columns whose value differs between `before` and `after`". -/
def buildUpdateSet (before after : Row) : Row :=
  after.filter (fun p => !(before.lookup p.1 == some p.2))

/-- Modelled from the spec: the WHERE clause "matches every column in
`before` by value (equality, with explicit NULL-safe comparison for
null-valued columns)". -/
def buildUpdateWhere (before : Row) : List (String × WhereOp) :=
  before.map (fun p =>
    (p.1, if p.2 = SqlValue.nullV then WhereOp.isNull else WhereOp.eqTo p.2))

/-- SQL satisfaction of one WHERE comparison against a candidate row: `IS
NULL` matches a stored NULL; `=` matches only a stored equal non-missing
value (comparison with NULL is not a match, as in SQL three-valued
logic). -/
def rowMatchesClause (row : Row) (c : String × WhereOp) : Bool :=
  match c.2 with
  | WhereOp.isNull => row.lookup c.1 == some SqlValue.nullV
  | WhereOp.eqTo v =>
      match row.lookup c.1 with
      | some SqlValue.nullV => false
      | some w => w == v
      | none => false

/-- A candidate row satisfies the WHERE clause when every comparison
matches. -/
def rowMatchesWhere (row : Row) (cs : List (String × WhereOp)) : Bool :=
  cs.all (rowMatchesClause row)

/-- Claim C7: the SET clause holds exactly the columns whose value differs
between `before` and `after`; the WHERE clause carries one comparison per
column of `before`, NULL-safe for null values; and a row satisfying the
WHERE clause agrees with `before` on every one of its columns — so the
update never applies to a row that has drifted from the last-read
snapshot. -/
theorem updateRow_set_where_clauses (before after row : Row) :
    (∀ c v, (c, v) ∈ buildUpdateSet before after ↔
      ((c, v) ∈ after ∧ before.lookup c ≠ some v)) ∧
    ((buildUpdateWhere before).map Prod.fst = before.map Prod.fst ∧
      ∀ c v, (c, v) ∈ before →
        (c, if v = SqlValue.nullV then WhereOp.isNull
            else WhereOp.eqTo v) ∈ buildUpdateWhere before) ∧
    (rowMatchesWhere row (buildUpdateWhere before) = true →
      ∀ c v, (c, v) ∈ before → row.lookup c = some v) := by
  refine ⟨fun c v => ?_, ⟨?_, fun c v hmem => ?_⟩, fun hsat c v hmem => ?_⟩
  · simp [buildUpdateSet, List.mem_filter]
  · simp [buildUpdateWhere]
  · exact List.mem_map.mpr ⟨(c, v), hmem, rfl⟩
  · have hcl : (c, if v = SqlValue.nullV then WhereOp.isNull
        else WhereOp.eqTo v) ∈ buildUpdateWhere before :=
      List.mem_map.mpr ⟨(c, v), hmem, rfl⟩
    have hone := (List.all_eq_true.mp hsat) _ hcl
    by_cases hv : v = SqlValue.nullV
    · subst hv
      simp only [if_pos rfl, rowMatchesClause] at hone
      exact eq_of_beq hone
    · simp only [if_neg hv, rowMatchesClause] at hone
      cases hlook : row.lookup c with
      | none => rw [hlook] at hone; cases hone
      | some w =>
          rw [hlook] at hone
          cases w with
          | nullV => cases hone
          | intV i => exact congrArg some (eq_of_beq hone) ▸ hlook ▸ rfl
          | realV r => exact congrArg some (eq_of_beq hone) ▸ hlook ▸ rfl
          | textV s => exact congrArg some (eq_of_beq hone) ▸ hlook ▸ rfl
          | boolV b => exact congrArg some (eq_of_beq hone) ▸ hlook ▸ rfl
          | blobV bs => exact congrArg some (eq_of_beq hone) ▸ hlook ▸ rfl

/-- Witness for C7: applying the snapshot-agreement conjunct at a concrete
snapshot and a matching candidate row. -/
theorem updateRow_set_where_clauses_witness :
    List.lookup colId ([(colId, SqlValue.intV 1)] : Row)
      = some (SqlValue.intV 1) :=
  (updateRow_set_where_clauses [(colId, SqlValue.intV 1)]
      [(colId, SqlValue.intV 5)] [(colId, SqlValue.intV 1)]).2.2
    (by decide) colId (SqlValue.intV 1) (by decide)

/-! ## Schema visualizer layout (claims C2, C3, C9, C10)

`calculateLayout` appears twice in
src/src/components/SchemaVisualizer/index.tsx: the first copy at lines
62-180 and a second copy at lines 607-726 (the latter takes an
`onEditTable` callback and uses a white edge style).  The graph-building,
level computation, grouping and positioning code is textually identical in
the two copies except for a dead `const refLevel =` binding in the first
copy's loop; the shared helpers below are therefore used by both
embeddings, while the parts that differ (`calculateLevel`'s loop body, node
data, edge style) are embedded twice.  The unused `incomingRelationships`
map (built at lines 68-79 and never read) is not modelled. -/

/-- A table as assembled by `loadSchema` before layout. -/
structure SchemaTable where
  name : String
  columns : List ColumnInfo
  foreignKeys : List ForeignKeyInfo
  indexes : List IndexInfo
deriving DecidableEq

/-- Node payload of the first `calculateLayout` copy. -/
structure TableNodeData where
  name : String
  columns : List ColumnInfo
  foreignKeys : List ForeignKeyInfo
  indexes : List IndexInfo
deriving DecidableEq

/-- React-flow node as produced by the first copy (structural fields). -/
structure LNode where
  id : String
  ntype : String
  position : Int × Int
  data : TableNodeData
deriving DecidableEq

/-- React-flow edge (structural fields plus the style constants that differ
between the two copies). -/
structure LEdge where
  id : String
  source : String
  sourceHandle : String
  target : String
  targetHandle : String
  etype : String
  animated : Bool
  strokeColor : String
  label : String
  labelFill : String
deriving DecidableEq

/-- The node type tag. -/
def tableNodeStr : String := "tableNode"

/-- The edge type tag. -/
def smoothstepStr : String := "smoothstep"

/-- Edge stroke / label colour of the first copy. -/
def strokePurple : String := "#a855f7"

/-- Edge stroke / label colour of the second copy. -/
def strokeWhite : String := "#ffffff"

/-- Separator used in node handle and edge identifiers. -/
def dashStr : String := "-"

/-- Suffix of source handles. -/
def sourceSuffix : String := "-source"

/-- Suffix of target handles. -/
def targetSuffix : String := "-target"

/-- JS `Map.set`: insertion order preserved, an existing key keeps its
position and its value is replaced. -/
def mapSet (m : List (String × List String)) (k : String)
    (v : List String) : List (String × List String) :=
  if (m.lookup k).isSome then
    m.map (fun p => if p.1 = k then (k, v) else p)
  else m ++ [(k, v)]

/-- JS `Set.add`: insertion-ordered, deduplicating. -/
def setAdd (s : List String) (x : String) : List String :=
  if x ∈ s then s else s ++ [x]

/-- JS `relationships.get(k)?.add(x)`: update the set stored at an existing
key; no-op when the key is absent. -/
def mapAddToSet (m : List (String × List String)) (k x : String) :
    List (String × List String) :=
  m.map (fun p => if p.1 = k then (p.1, setAdd p.2 x) else p)

/-- The `relationships` map: every table name bound to an empty set, then
each foreign key's referenced table added to its owner's set. -/
def buildRel (tables : List SchemaTable) : List (String × List String) :=
  let m0 := tables.foldl (fun m t => mapSet m t.name []) []
  tables.foldl
    (fun m t => t.foreignKeys.foldl
      (fun m2 fk => mapAddToSet m2 t.name fk.table) m) m0

/-- `relationships.get(s)` with the undefined case read as the empty set
(the `if (refs)` guard in `calculateLevel`). -/
def relFun (m : List (String × List String)) (s : String) :
    List String :=
  (m.lookup s).getD []

/-- The `visited` set and `levels` map threaded through `calculateLevel`. -/
structure LvSt where
  visited : List String
  levels : List (String × Nat)
deriving DecidableEq

/-- JS `levels.get(t) || 0`. -/
def lookupD (m : List (String × Nat)) (k : String) (d : Nat) : Nat :=
  match m.lookup k with
  | some v => v
  | none => d

/-- Embedding of the first copy's `calculateLevel` (lines 86-103).  Since
`maxLevel` starts at `currentLevel` and is only ever updated with
`Math.max(maxLevel, currentLevel)`, it always equals `currentLevel`; the
recursive call's return value is bound to the dead `refLevel` constant.
The JS recursion is depth-bounded by the visited set; `fuel` makes that
bound explicit (claim C3 proves the bound suffices). -/
def calcLevel (rel : String → List String) :
    Nat → LvSt → String → Nat → Option (LvSt × Nat)
  | 0, _, _, _ => none
  | fuel + 1, st, t, c =>
    if t ∈ st.visited then some (st, lookupD st.levels t 0)
    else
      let step : Option LvSt → String → Option LvSt := fun ost r =>
        match ost with
        | none => none
        | some s =>
          if r ∈ s.visited then some s
          else
            match calcLevel rel fuel s r (c + 1) with
            | none => none
            | some (s2, _refLevel) => some s2
      match (rel t).foldl step (some ⟨st.visited ++ [t], st.levels⟩) with
      | none => none
      | some st2 => some (⟨st2.visited, st2.levels ++ [(t, c)]⟩, c)

/-- The loop body of `calcLevel` as a named function (definitionally the
inline `step`), for stating fold lemmas. -/
def calcStep (rel : String → List String) (fuel : Nat) (c : Nat)
    (ost : Option LvSt) (r : String) : Option LvSt :=
  match ost with
  | none => none
  | some s =>
    if r ∈ s.visited then some s
    else
      match calcLevel rel fuel s r (c + 1) with
      | none => none
      | some (s2, _refLevel) => some s2

theorem calcLevel_zero (rel : String → List String) (st : LvSt)
    (t : String) (c : Nat) : calcLevel rel 0 st t c = none := rfl

theorem calcLevel_succ (rel : String → List String) (fuel : Nat)
    (st : LvSt) (t : String) (c : Nat) :
    calcLevel rel (fuel + 1) st t c =
      if t ∈ st.visited then some (st, lookupD st.levels t 0)
      else
        match (rel t).foldl (calcStep rel fuel c)
            (some ⟨st.visited ++ [t], st.levels⟩) with
        | none => none
        | some st2 => some (⟨st2.visited, st2.levels ++ [(t, c)]⟩, c) :=
  rfl

/-- A single top-level `calculateLevel(name, 0)` call, keeping the state. -/
def runCalc (rel : String → List String) (fuel : Nat) (st : LvSt)
    (t : String) : Option LvSt :=
  (calcLevel rel fuel st t 0).map Prod.fst

/-- A `tables.forEach` loop that threads the level state. -/
def runPhase (step : LvSt → SchemaTable → Option LvSt) :
    List SchemaTable → LvSt → Option LvSt
  | [], st => some st
  | t :: ts, st =>
    match step st t with
    | none => none
    | some st2 => runPhase step ts st2

/-- First phase (lines 106-110): seed with tables that have no outgoing
relationships. -/
def phase1Step (rel : String → List String) (fuel : Nat) (st : LvSt)
    (t : SchemaTable) : Option LvSt :=
  if (rel t.name).length = 0 then runCalc rel fuel st t.name else some st

/-- Second phase (lines 113-117): handle any remaining tables. -/
def phase2Step (rel : String → List String) (fuel : Nat) (st : LvSt)
    (t : SchemaTable) : Option LvSt :=
  if (st.levels.lookup t.name).isSome then some st
  else runCalc rel fuel st t.name

/-- Every name that the level recursion can ever touch: the table names and
all foreign-key targets. -/
def allNames (tables : List SchemaTable) : List String :=
  tables.map (fun t => t.name) ++
    tables.flatMap (fun t => t.foreignKeys.map (fun fk => fk.table))

/-- Fuel that claim C3 proves sufficient for the whole computation. -/
def layoutFuel (tables : List SchemaTable) : Nat :=
  (allNames tables).dedup.length + 1

/-- The complete `levels` map after both seeding phases. -/
def computeLevels (tables : List SchemaTable) :
    Option (List (String × Nat)) :=
  match runPhase (phase1Step (relFun (buildRel tables))
      (layoutFuel tables)) tables ⟨[], []⟩ with
  | none => none
  | some st1 =>
    match runPhase (phase2Step (relFun (buildRel tables))
        (layoutFuel tables)) tables st1 with
    | none => none
    | some st2 => some st2.levels

/-- JS `Set`-like accumulation of the distinct level values in first-seen
order (the key set of `levelGroups`). -/
def natSetAdd (s : List Nat) (x : Nat) : List Nat :=
  if x ∈ s then s else s ++ [x]

/-- Keys of `levelGroups` in insertion order. -/
def levelKeys (tables : List SchemaTable) (lvl : String → Nat) :
    List Nat :=
  tables.foldl (fun ks t => natSetAdd ks (lvl t.name)) []

/-- `Array.from(levelGroups.keys()).sort((a, b) => b - a)`. -/
def sortedLevels (tables : List SchemaTable) (lvl : String → Nat) :
    List Nat :=
  (levelKeys tables lvl).insertionSort (fun a b => b ≤ a)

/-- The group of tables at one level, in input order. -/
def groupOf (tables : List SchemaTable) (lvl : String → Nat) (l : Nat) :
    List SchemaTable :=
  tables.filter (fun t => lvl t.name == l)

/-- Layout constant. -/
def nodeWidth : Int := 250

/-- Layout constant. -/
def nodeHeight : Int := 200

/-- Layout constant. -/
def horizontalGap : Int := 100

/-- Layout constant. -/
def verticalGap : Int := 80

/-- Node construction of the first copy (lines 142-157): position from the
level row and the index inside the row. -/
def mkNode (levelIndex : Nat) (groupSize : Nat) (tableIndex : Nat)
    (t : SchemaTable) : LNode :=
  let levelWidth : Int := (groupSize : Int) * (nodeWidth + horizontalGap)
  let startX : Int := -(levelWidth / 2) + nodeWidth / 2
  { id := t.name
    ntype := tableNodeStr
    position :=
      (startX + (tableIndex : Int) * (nodeWidth + horizontalGap),
        (levelIndex : Int) * (nodeHeight + verticalGap))
    data := { name := t.name, columns := t.columns,
              foreignKeys := t.foreignKeys, indexes := t.indexes } }

/-- Edge construction of the first copy (lines 161-177). -/
def mkEdge (t : SchemaTable) (fk : ForeignKeyInfo) : LEdge :=
  { id := t.name ++ dashStr ++ fk.«from» ++ dashStr ++ fk.table ++
      dashStr ++ fk.«to»
    source := t.name
    sourceHandle := t.name ++ dashStr ++ fk.«from» ++ sourceSuffix
    target := fk.table
    targetHandle := fk.table ++ dashStr ++ fk.«to» ++ targetSuffix
    etype := smoothstepStr
    animated := true
    strokeColor := strokePurple
    label := fk.«from»
    labelFill := strokePurple }

/-- `levels.get(name) || 0`, over the finished levels map. -/
def levelOfName (lvls : List (String × Nat)) (n : String) : Nat :=
  lookupD lvls n 0

/-- The node list: level rows sorted descending, rows positioned top to
bottom, tables left to right inside a row. -/
def nodesOf (tables : List SchemaTable) (lvls : List (String × Nat)) :
    List LNode :=
  (sortedLevels tables (levelOfName lvls)).enum.flatMap (fun li =>
    (groupOf tables (levelOfName lvls) li.2).enum.map (fun ti =>
      mkNode li.1 (groupOf tables (levelOfName lvls) li.2).length
        ti.1 ti.2))

/-- The edge list: one edge per foreign key of every table. -/
def edgesOf (tables : List SchemaTable) : List LEdge :=
  tables.flatMap (fun t => t.foreignKeys.map (fun fk => mkEdge t fk))

/-- Embedding of the first `calculateLayout` copy. -/
def calculateLayout (tables : List SchemaTable) :
    Option (List LNode × List LEdge) :=
  match computeLevels tables with
  | none => none
  | some lvls => some (nodesOf tables lvls, edgesOf tables)

/-! ### Termination of the level recursion -/

theorem calcStep_none (rel : String → List String) (fuel c : Nat)
    (r : String) : calcStep rel fuel c none r = none := rfl

theorem foldl_calcStep_none (rel : String → List String) (fuel c : Nat) :
    ∀ l : List String, l.foldl (calcStep rel fuel c) none = none := by
  intro l
  induction l with
  | nil => rfl
  | cons r rs ih => rw [List.foldl_cons, calcStep_none]; exact ih

/-- A generic preserved-invariant lemma for `foldl`. -/
theorem foldl_inv_mem {α β : Type} (P : β → Prop) (f : β → α → β)
    (l : List α) (h : ∀ b a, a ∈ l → P b → P (f b a)) :
    ∀ b, P b → P (l.foldl f b) := by
  induction l with
  | nil => intro b hb; exact hb
  | cons a as ih =>
      intro b hb
      rw [List.foldl_cons]
      exact ih (fun b2 a2 ha2 => h b2 a2 (List.mem_cons_of_mem a ha2))
        (f b a) (h b a (List.mem_cons_self a as) hb)

theorem foldl_calcStep_mono (rel : String → List String) (fuel c : Nat)
    (hrec : ∀ st t st2 n, calcLevel rel fuel st t (c + 1) = some (st2, n) →
      st.visited ⊆ st2.visited) :
    ∀ (l : List String) (s s2 : LvSt),
      l.foldl (calcStep rel fuel c) (some s) = some s2 →
      s.visited ⊆ s2.visited := by
  intro l
  induction l with
  | nil =>
      intro s s2 h
      cases h
      exact fun x hx => hx
  | cons r rs ih =>
      intro s s2 h
      rw [List.foldl_cons] at h
      by_cases hr : r ∈ s.visited
      · rw [show calcStep rel fuel c (some s) r = some s from by
          simp [calcStep, hr]] at h
        exact ih s s2 h
      · cases hcl : calcLevel rel fuel s r (c + 1) with
        | none =>
            rw [show calcStep rel fuel c (some s) r = none from by
              simp [calcStep, hr, hcl]] at h
            rw [foldl_calcStep_none] at h
            cases h
        | some p =>
            rw [show calcStep rel fuel c (some s) r = some p.1 from by
              simp [calcStep, hr, hcl]] at h
            exact fun x hx =>
              ih p.1 s2 h (hrec s r p.1 p.2 (by rw [hcl]) hx)

theorem calcLevel_visited_mono (rel : String → List String) :
    ∀ (fuel : Nat) (st : LvSt) (t : String) (c : Nat) (st2 : LvSt)
      (n : Nat), calcLevel rel fuel st t c = some (st2, n) →
      st.visited ⊆ st2.visited := by
  intro fuel
  induction fuel with
  | zero =>
      intro st t c st2 n h
      rw [calcLevel_zero] at h
      cases h
  | succ fuel ih =>
      intro st t c st2 n h
      rw [calcLevel_succ] at h
      by_cases ht : t ∈ st.visited
      · rw [if_pos ht] at h
        injection h with h1
        injection h1 with h2 h3
        subst h2
        exact fun x hx => hx
      · rw [if_neg ht] at h
        cases hf : (rel t).foldl (calcStep rel fuel c)
            (some ⟨st.visited ++ [t], st.levels⟩) with
        | none => rw [hf] at h; cases h
        | some sf =>
            rw [hf] at h
            injection h with h1
            injection h1 with h2 h3
            subst h2
            intro x hx
            exact foldl_calcStep_mono rel fuel c
              (fun s t2 s2 n2 hcl => ih s t2 (c + 1) s2 n2 hcl)
              (rel t) ⟨st.visited ++ [t], st.levels⟩ sf hf
              (List.mem_append_left _ hx)

/-- After a successful `calcLevel` call on `t`, `t` is visited. -/
theorem calcLevel_visits (rel : String → List String) (fuel : Nat)
    (st : LvSt) (t : String) (c : Nat) (st2 : LvSt) (n : Nat)
    (h : calcLevel rel fuel st t c = some (st2, n)) : t ∈ st2.visited := by
  cases fuel with
  | zero => rw [calcLevel_zero] at h; cases h
  | succ fuel =>
      rw [calcLevel_succ] at h
      by_cases ht : t ∈ st.visited
      · rw [if_pos ht] at h
        injection h with h1
        injection h1 with h2 h3
        subst h2
        exact ht
      · rw [if_neg ht] at h
        cases hf : (rel t).foldl (calcStep rel fuel c)
            (some ⟨st.visited ++ [t], st.levels⟩) with
        | none => rw [hf] at h; cases h
        | some sf =>
            rw [hf] at h
            injection h with h1
            injection h1 with h2 h3
            subst h2
            exact foldl_calcStep_mono rel fuel c
              (fun s t2 s2 n2 hcl =>
                calcLevel_visited_mono rel fuel s t2 (c + 1) s2 n2 hcl)
              (rel t) ⟨st.visited ++ [t], st.levels⟩ sf hf
              (List.mem_append_right _ (List.mem_singleton_self t))

/-- Count of names not yet visited. -/
def remaining (U visited : List String) : Nat :=
  (U.filter (fun x => decide (x ∉ visited))).length

theorem remaining_mono (U : List String) {v1 v2 : List String}
    (h : v1 ⊆ v2) : remaining U v2 ≤ remaining U v1 := by
  refine List.Sublist.length_le (List.monotone_filter_right U ?_)
  intro a ha
  simp only [decide_eq_true_eq] at ha ⊢
  exact fun hmem => ha (h hmem)

theorem remaining_le (U visited : List String) :
    remaining U visited ≤ U.length :=
  List.length_filter_le _ U

theorem remaining_strict (U : List String) (v : List String) (t : String)
    (htU : t ∈ U) (htv : t ∉ v) :
    remaining U (v ++ [t]) < remaining U v := by
  induction U with
  | nil => cases htU
  | cons x xs ih =>
      by_cases hx : x = t
      · subst hx
        have hL : remaining (x :: xs) (v ++ [x]) = remaining xs (v ++ [x]) := by
          simp [remaining, List.filter_cons, List.mem_append]
        have hR : remaining (x :: xs) v = remaining xs v + 1 := by
          simp [remaining, List.filter_cons, htv]
        have hle : remaining xs (v ++ [x]) ≤ remaining xs v :=
          remaining_mono xs (fun y hy => List.mem_append_left _ hy)
        omega
      · have hxs : t ∈ xs := by
          cases htU with
          | head => exact absurd rfl hx
          | tail _ hmem => exact hmem
        have hstep := ih hxs
        by_cases hxv : x ∈ v
        · have hL : remaining (x :: xs) (v ++ [t]) = remaining xs (v ++ [t]) := by
            simp [remaining, List.filter_cons, List.mem_append, hxv]
          have hR : remaining (x :: xs) v = remaining xs v := by
            simp [remaining, List.filter_cons, hxv]
          omega
        · have hL : remaining (x :: xs) (v ++ [t]) =
              remaining xs (v ++ [t]) + 1 := by
            simp [remaining, List.filter_cons, List.mem_append, hxv, hx]
          have hR : remaining (x :: xs) v = remaining xs v + 1 := by
            simp [remaining, List.filter_cons, hxv]
          omega

/-- With enough fuel — more than the count of unvisited names — the level
recursion always succeeds. -/
theorem calcLevel_total (rel : String → List String) (U : List String)
    (hrel : ∀ s r, r ∈ rel s → r ∈ U) :
    ∀ (fuel : Nat) (st : LvSt) (t : String) (c : Nat), t ∈ U →
      remaining U st.visited < fuel →
      ∃ st2 n, calcLevel rel fuel st t c = some (st2, n) := by
  intro fuel
  induction fuel with
  | zero => intro st t c htU hrem; omega
  | succ fuel ih =>
      intro st t c htU hrem
      rw [calcLevel_succ]
      by_cases ht : t ∈ st.visited
      · exact ⟨st, lookupD st.levels t 0, by rw [if_pos ht]⟩
      · rw [if_neg ht]
        have hstrict := remaining_strict U st.visited t htU ht
        have hfold : ∀ (l : List String) (s : LvSt), (∀ r ∈ l, r ∈ U) →
            remaining U s.visited < fuel →
            ∃ sf, l.foldl (calcStep rel fuel c) (some s) = some sf := by
          intro l
          induction l with
          | nil => intro s _ _; exact ⟨s, rfl⟩
          | cons r rs ihl =>
              intro s hlU hsrem
              rw [List.foldl_cons]
              by_cases hr : r ∈ s.visited
              · rw [show calcStep rel fuel c (some s) r = some s from by
                  simp [calcStep, hr]]
                exact ihl s (fun r2 h2 => hlU r2 (List.mem_cons_of_mem r h2))
                  hsrem
              · obtain ⟨s2, n2, hcl⟩ := ih s r (c + 1)
                  (hlU r (List.mem_cons_self r rs)) hsrem
                rw [show calcStep rel fuel c (some s) r = some s2 from by
                  simp [calcStep, hr, hcl]]
                have hmono := calcLevel_visited_mono rel fuel s r (c + 1)
                  s2 n2 hcl
                exact ihl s2 (fun r2 h2 => hlU r2 (List.mem_cons_of_mem r h2))
                  (lt_of_le_of_lt (remaining_mono U hmono) hsrem)
        obtain ⟨sf, hf⟩ := hfold (rel t) ⟨st.visited ++ [t], st.levels⟩
          (fun r hr2 => hrel t r hr2) (by
            show remaining U (st.visited ++ [t]) < fuel
            omega)
        rw [hf]
        exact ⟨⟨sf.visited, sf.levels ++ [(t, c)]⟩, c, rfl⟩

/-- Keys of the levels map. -/
def keysOf (lv : List (String × Nat)) : List String := lv.map Prod.fst

/-- Invariant of the level recursion: the visited set is the key set of the
levels map together with the names currently on the recursion stack. -/
def lvInv (T : List String) (st : LvSt) : Prop :=
  ∀ x, x ∈ st.visited ↔ (x ∈ keysOf st.levels ∨ x ∈ T)

theorem calcLevel_inv (rel : String → List String) :
    ∀ (fuel : Nat) (st : LvSt) (t : String) (c : Nat) (st2 : LvSt)
      (n : Nat) (T : List String),
      calcLevel rel fuel st t c = some (st2, n) → lvInv T st →
      lvInv T st2 := by
  intro fuel
  induction fuel with
  | zero => intro st t c st2 n T h; rw [calcLevel_zero] at h; cases h
  | succ fuel ih =>
      intro st t c st2 n T h hinv
      rw [calcLevel_succ] at h
      by_cases ht : t ∈ st.visited
      · rw [if_pos ht] at h
        injection h with h1
        injection h1 with h2 h3
        subst h2
        exact hinv
      · rw [if_neg ht] at h
        cases hf : (rel t).foldl (calcStep rel fuel c)
            (some ⟨st.visited ++ [t], st.levels⟩) with
        | none => rw [hf] at h; cases h
        | some sf =>
            rw [hf] at h
            injection h with h1
            injection h1 with h2 h3
            subst h2
            have hinv1 : lvInv (t :: T) ⟨st.visited ++ [t], st.levels⟩ := by
              intro x
              have := hinv x
              simp only [List.mem_append, List.mem_singleton,
                List.mem_cons] at *
              tauto
            have hfoldinv : ∀ (l : List String) (s sf2 : LvSt),
                l.foldl (calcStep rel fuel c) (some s) = some sf2 →
                lvInv (t :: T) s → lvInv (t :: T) sf2 := by
              intro l
              induction l with
              | nil => intro s sf2 hfl hs; cases hfl; exact hs
              | cons r rs ihl =>
                  intro s sf2 hfl hs
                  rw [List.foldl_cons] at hfl
                  by_cases hr : r ∈ s.visited
                  · rw [show calcStep rel fuel c (some s) r = some s from by
                      simp [calcStep, hr]] at hfl
                    exact ihl s sf2 hfl hs
                  · cases hcl : calcLevel rel fuel s r (c + 1) with
                    | none =>
                        rw [show calcStep rel fuel c (some s) r = none from by
                          simp [calcStep, hr, hcl]] at hfl
                        rw [foldl_calcStep_none] at hfl
                        cases hfl
                    | some p =>
                        rw [show calcStep rel fuel c (some s) r = some p.1
                          from by simp [calcStep, hr, hcl]] at hfl
                        exact ihl p.1 sf2 hfl
                          (ih s r (c + 1) p.1 p.2 (t :: T) (by rw [hcl]) hs)
            have hsf := hfoldinv (rel t) ⟨st.visited ++ [t], st.levels⟩ sf
              hf hinv1
            intro x
            have := hsf x
            simp only [keysOf, List.map_append, List.map_cons, List.map_nil,
              List.mem_append, List.mem_singleton, List.mem_cons] at *
            tauto

/-- Phase steps are total: under `layoutFuel`, the per-table call always
succeeds when the table name is in scope. -/
theorem runPhase_total (U : List String)
    (step : LvSt → SchemaTable → Option LvSt)
    (hstep : ∀ st t, t.name ∈ U →
      remaining U st.visited < U.length + 1 →
      ∃ st2, step st t = some st2 ∧ st.visited ⊆ st2.visited) :
    ∀ (ts : List SchemaTable) (st : LvSt), (∀ t ∈ ts, t.name ∈ U) →
      ∃ st2, runPhase step ts st = some st2 ∧ st.visited ⊆ st2.visited := by
  intro ts
  induction ts with
  | nil => intro st _; exact ⟨st, rfl, fun x hx => hx⟩
  | cons t ts2 ih =>
      intro st hU
      obtain ⟨st1, hst1, hsub1⟩ := hstep st t (hU t (List.mem_cons_self t ts2))
        (Nat.lt_succ_of_le (remaining_le U st.visited))
      obtain ⟨st2, hst2, hsub2⟩ := ih st1
        (fun t2 h2 => hU t2 (List.mem_cons_of_mem t h2))
      refine ⟨st2, ?_, fun x hx => hsub2 (hsub1 hx)⟩
      rw [runPhase, hst1]
      exact hst2

/-- `runPhase` preserves the levels invariant when each step does. -/
theorem runPhase_inv (step : LvSt → SchemaTable → Option LvSt)
    (hstep : ∀ st t st2, step st t = some st2 → lvInv [] st → lvInv [] st2) :
    ∀ (ts : List SchemaTable) (st st2 : LvSt),
      runPhase step ts st = some st2 → lvInv [] st → lvInv [] st2 := by
  intro ts
  induction ts with
  | nil => intro st st2 h hi; cases h; exact hi
  | cons t ts2 ih =>
      intro st st2 h hi
      rw [runPhase] at h
      cases hs : step st t with
      | none => rw [hs] at h; cases h
      | some st1 =>
          rw [hs] at h
          exact ih st1 st2 h (hstep st t st1 hs hi)

/-- `runPhase` only grows the visited set when each step does. -/
theorem runPhase_mono (step : LvSt → SchemaTable → Option LvSt)
    (hstep : ∀ st t st2, step st t = some st2 → st.visited ⊆ st2.visited) :
    ∀ (ts : List SchemaTable) (st st2 : LvSt),
      runPhase step ts st = some st2 → st.visited ⊆ st2.visited := by
  intro ts
  induction ts with
  | nil => intro st st2 h; cases h; exact fun x hx => hx
  | cons t ts2 ih =>
      intro st st2 h
      rw [runPhase] at h
      cases hs : step st t with
      | none => rw [hs] at h; cases h
      | some st1 =>
          rw [hs] at h
          exact fun x hx => ih st1 st2 h (hstep st t st1 hs hx)

/-- All foreign-key targets of the input tables. -/
def fkTargets (tables : List SchemaTable) : List String :=
  tables.flatMap (fun t => t.foreignKeys.map (fun fk => fk.table))

theorem lookup_mem {α β : Type} [BEq α] [LawfulBEq α]
    (l : List (α × β)) (k : α) (v : β) (h : l.lookup k = some v) :
    (k, v) ∈ l := by
  induction l with
  | nil => cases h
  | cons p ps ih =>
      obtain ⟨pk, pv⟩ := p
      rw [List.lookup_cons] at h
      cases hbe : (k == pk) with
      | true =>
          simp only [hbe] at h
          injection h with h1
          subst h1
          have hk : k = pk := eq_of_beq hbe
          subst hk
          exact List.mem_cons_self _ _
      | false =>
          simp only [hbe] at h
          exact List.mem_cons_of_mem _ (ih h)

theorem mem_setAdd {s : List String} {x r : String}
    (h : r ∈ setAdd s x) : r ∈ s ∨ r = x := by
  unfold setAdd at h
  by_cases hx : x ∈ s
  · rw [if_pos hx] at h; exact Or.inl h
  · rw [if_neg hx] at h
    rcases List.mem_append.mp h with h2 | h2
    · exact Or.inl h2
    · exact Or.inr (List.mem_singleton.mp h2)

/-- Every set stored in the relationships map only holds foreign-key
targets. -/
theorem buildRel_values (tables : List SchemaTable) :
    ∀ p ∈ buildRel tables, ∀ r ∈ p.2, r ∈ fkTargets tables := by
  have h0 : ∀ p ∈ tables.foldl (fun m t => mapSet m t.name []) [],
      ∀ r ∈ p.2, r ∈ fkTargets tables := by
    refine foldl_inv_mem
      (fun m : List (String × List String) =>
        ∀ p ∈ m, ∀ r ∈ p.2, r ∈ fkTargets tables)
      _ tables (fun m t _ hm p hp r hr => ?_) [] (by intro p hp; cases hp)
    unfold mapSet at hp
    by_cases hk : ((m.lookup t.name).isSome : Prop)
    · rw [if_pos hk] at hp
      obtain ⟨q, hq, hqe⟩ := List.mem_map.mp hp
      by_cases hq1 : q.1 = t.name
      · rw [if_pos hq1] at hqe
        rw [← hqe] at hr
        cases hr
      · rw [if_neg hq1] at hqe
        exact hm q hq r (by rw [hqe]; exact hr)
    · rw [if_neg hk] at hp
      rcases List.mem_append.mp hp with h2 | h2
      · exact hm p h2 r hr
      · rw [List.mem_singleton.mp h2] at hr
        cases hr
  refine foldl_inv_mem
    (fun m : List (String × List String) =>
      ∀ p ∈ m, ∀ r ∈ p.2, r ∈ fkTargets tables)
    _ tables (fun m t htm hm => ?_) _ h0
  refine foldl_inv_mem
    (fun m : List (String × List String) =>
      ∀ p ∈ m, ∀ r ∈ p.2, r ∈ fkTargets tables)
    _ t.foreignKeys (fun m2 fk hfk hm2 p hp r hr => ?_) m hm
  unfold mapAddToSet at hp
  obtain ⟨q, hq, hqe⟩ := List.mem_map.mp hp
  by_cases hq1 : q.1 = t.name
  · rw [if_pos hq1] at hqe
    rw [← hqe] at hr
    rcases mem_setAdd hr with h2 | h2
    · exact hm2 q hq r h2
    · rw [h2]
      exact List.mem_flatMap.mpr ⟨t, htm,
        List.mem_map.mpr ⟨fk, hfk, rfl⟩⟩
  · rw [if_neg hq1] at hqe
    exact hm2 q hq r (by rw [hqe]; exact hr)

theorem rel_in_U (tables : List SchemaTable) :
    ∀ s r, r ∈ relFun (buildRel tables) s →
      r ∈ (allNames tables).dedup := by
  intro s r h
  unfold relFun at h
  cases hl : (buildRel tables).lookup s with
  | none => rw [hl] at h; cases h
  | some v =>
      rw [hl] at h
      refine List.mem_dedup.mpr (List.mem_append_right _ ?_)
      exact buildRel_values tables (s, v) (lookup_mem _ _ _ hl) r h

theorem name_in_U (tables : List SchemaTable) (t : SchemaTable)
    (ht : t ∈ tables) : t.name ∈ (allNames tables).dedup :=
  List.mem_dedup.mpr (List.mem_append_left _ (List.mem_map_of_mem _ ht))

theorem runCalc_some (rel : String → List String) (fuel : Nat) (st : LvSt)
    (t : String) (st2 : LvSt) (h : runCalc rel fuel st t = some st2) :
    ∃ n, calcLevel rel fuel st t 0 = some (st2, n) := by
  unfold runCalc at h
  cases hcl : calcLevel rel fuel st t 0 with
  | none => rw [hcl] at h; cases h
  | some p =>
      rw [hcl] at h
      injection h with h1
      exact ⟨p.2, by rw [← h1]⟩

theorem runCalc_total (rel : String → List String) (U : List String)
    (hrel : ∀ s r, r ∈ rel s → r ∈ U) (st : LvSt) (t : String)
    (htU : t ∈ U) (hrem : remaining U st.visited < U.length + 1) :
    ∃ st2, runCalc rel (U.length + 1) st t = some st2 ∧
      st.visited ⊆ st2.visited := by
  obtain ⟨st2, n, hcl⟩ := calcLevel_total rel U hrel (U.length + 1)
    st t 0 htU hrem
  exact ⟨st2, by unfold runCalc; rw [hcl]; rfl,
    calcLevel_visited_mono rel _ st t 0 st2 n hcl⟩

theorem runCalc_mono (rel : String → List String) (fuel : Nat) (st : LvSt)
    (t : String) (st2 : LvSt) (h : runCalc rel fuel st t = some st2) :
    st.visited ⊆ st2.visited := by
  obtain ⟨n, hcl⟩ := runCalc_some rel fuel st t st2 h
  exact calcLevel_visited_mono rel fuel st t 0 st2 n hcl

theorem runCalc_inv (rel : String → List String) (fuel : Nat) (st : LvSt)
    (t : String) (st2 : LvSt) (h : runCalc rel fuel st t = some st2)
    (hi : lvInv [] st) : lvInv [] st2 := by
  obtain ⟨n, hcl⟩ := runCalc_some rel fuel st t st2 h
  exact calcLevel_inv rel fuel st t 0 st2 n [] hcl hi

theorem phase1Step_total (rel : String → List String) (U : List String)
    (hrel : ∀ s r, r ∈ rel s → r ∈ U) (st : LvSt) (t : SchemaTable)
    (htU : t.name ∈ U) (hrem : remaining U st.visited < U.length + 1) :
    ∃ st2, phase1Step rel (U.length + 1) st t = some st2 ∧
      st.visited ⊆ st2.visited := by
  unfold phase1Step
  by_cases hc : (rel t.name).length = 0
  · rw [if_pos hc]
    exact runCalc_total rel U hrel st t.name htU hrem
  · rw [if_neg hc]
    exact ⟨st, rfl, fun x hx => hx⟩

theorem phase2Step_total (rel : String → List String) (U : List String)
    (hrel : ∀ s r, r ∈ rel s → r ∈ U) (st : LvSt) (t : SchemaTable)
    (htU : t.name ∈ U) (hrem : remaining U st.visited < U.length + 1) :
    ∃ st2, phase2Step rel (U.length + 1) st t = some st2 ∧
      st.visited ⊆ st2.visited := by
  unfold phase2Step
  by_cases hc : ((st.levels.lookup t.name).isSome : Prop)
  · rw [if_pos hc]
    exact ⟨st, rfl, fun x hx => hx⟩
  · rw [if_neg hc]
    exact runCalc_total rel U hrel st t.name htU hrem

theorem phase1Step_mono (rel : String → List String) (fuel : Nat)
    (st : LvSt) (t : SchemaTable) (st2 : LvSt)
    (h : phase1Step rel fuel st t = some st2) :
    st.visited ⊆ st2.visited := by
  unfold phase1Step at h
  by_cases hc : (rel t.name).length = 0
  · rw [if_pos hc] at h
    exact runCalc_mono rel fuel st t.name st2 h
  · rw [if_neg hc] at h
    injection h with h1
    subst h1
    exact fun x hx => hx

theorem phase2Step_mono (rel : String → List String) (fuel : Nat)
    (st : LvSt) (t : SchemaTable) (st2 : LvSt)
    (h : phase2Step rel fuel st t = some st2) :
    st.visited ⊆ st2.visited := by
  unfold phase2Step at h
  by_cases hc : ((st.levels.lookup t.name).isSome : Prop)
  · rw [if_pos hc] at h
    injection h with h1
    subst h1
    exact fun x hx => hx
  · rw [if_neg hc] at h
    exact runCalc_mono rel fuel st t.name st2 h

theorem phase1Step_inv (rel : String → List String) (fuel : Nat)
    (st : LvSt) (t : SchemaTable) (st2 : LvSt)
    (h : phase1Step rel fuel st t = some st2) (hi : lvInv [] st) :
    lvInv [] st2 := by
  unfold phase1Step at h
  by_cases hc : (rel t.name).length = 0
  · rw [if_pos hc] at h
    exact runCalc_inv rel fuel st t.name st2 h hi
  · rw [if_neg hc] at h
    injection h with h1
    subst h1
    exact hi

theorem phase2Step_inv (rel : String → List String) (fuel : Nat)
    (st : LvSt) (t : SchemaTable) (st2 : LvSt)
    (h : phase2Step rel fuel st t = some st2) (hi : lvInv [] st) :
    lvInv [] st2 := by
  unfold phase2Step at h
  by_cases hc : ((st.levels.lookup t.name).isSome : Prop)
  · rw [if_pos hc] at h
    injection h with h1
    subst h1
    exact hi
  · rw [if_neg hc] at h
    exact runCalc_inv rel fuel st t.name st2 h hi

theorem lookup_isSome_keys (lv : List (String × Nat)) (k : String)
    (h : (lv.lookup k).isSome) : k ∈ keysOf lv := by
  cases hl : lv.lookup k with
  | none => rw [hl] at h; cases h
  | some v => exact List.mem_map.mpr ⟨(k, v), lookup_mem lv k v hl, rfl⟩

/-- After the second phase, every table of the list has been visited. -/
theorem phase2_covers (rel : String → List String) (fuel : Nat) :
    ∀ (ts : List SchemaTable) (st st2 : LvSt),
      runPhase (phase2Step rel fuel) ts st = some st2 → lvInv [] st →
      ∀ t ∈ ts, t.name ∈ st2.visited := by
  intro ts
  induction ts with
  | nil => intro st st2 h hi t ht; cases ht
  | cons t0 ts2 ih =>
      intro st st2 h hi t ht
      rw [runPhase] at h
      cases hs : phase2Step rel fuel st t0 with
      | none => rw [hs] at h; cases h
      | some st1 =>
          rw [hs] at h
          have hinv1 : lvInv [] st1 := phase2Step_inv rel fuel st t0 st1 hs hi
          cases ht with
          | head =>
              have hmono := runPhase_mono (phase2Step rel fuel)
                (fun s a s2 hss => phase2Step_mono rel fuel s a s2 hss)
                ts2 st1 st2 h
              unfold phase2Step at hs
              by_cases hk : ((st.levels.lookup t0.name).isSome : Prop)
              · rw [if_pos hk] at hs
                injection hs with h1
                subst h1
                exact hmono ((hi t0.name).mpr
                  (Or.inl (lookup_isSome_keys st.levels t0.name hk)))
              · rw [if_neg hk] at hs
                obtain ⟨n, hcl⟩ := runCalc_some rel fuel st t0.name st1 hs
                exact hmono (calcLevel_visits rel fuel st t0.name 0 st1 n hcl)
          | tail _ hmem => exact ih st1 st2 h hinv1 t hmem

/-- The level computation always succeeds and assigns a level to every
input table.  (Shared by the claim C3 and C9 theorems.) -/
theorem computeLevels_covers (tables : List SchemaTable) :
    ∃ lvls, computeLevels tables = some lvls ∧
      ∀ t ∈ tables, t.name ∈ keysOf lvls := by
  have hfuel : layoutFuel tables = ((allNames tables).dedup).length + 1 :=
    rfl
  have hinv0 : lvInv [] ⟨[], []⟩ := by
    intro x
    simp [keysOf]
  obtain ⟨st1, h1, _⟩ := runPhase_total ((allNames tables).dedup)
    (phase1Step (relFun (buildRel tables)) (layoutFuel tables))
    (fun st t htU hrem => by
      rw [hfuel]
      exact phase1Step_total (relFun (buildRel tables)) _
        (rel_in_U tables) st t htU hrem)
    tables ⟨[], []⟩ (fun t ht => name_in_U tables t ht)
  obtain ⟨st2, h2, _⟩ := runPhase_total ((allNames tables).dedup)
    (phase2Step (relFun (buildRel tables)) (layoutFuel tables))
    (fun st t htU hrem => by
      rw [hfuel]
      exact phase2Step_total (relFun (buildRel tables)) _
        (rel_in_U tables) st t htU hrem)
    tables st1 (fun t ht => name_in_U tables t ht)
  have hinv1 : lvInv [] st1 := runPhase_inv _
    (fun s a s2 hss => phase1Step_inv (relFun (buildRel tables))
      (layoutFuel tables) s a s2 hss)
    tables ⟨[], []⟩ st1 h1 hinv0
  have hinv2 : lvInv [] st2 := runPhase_inv _
    (fun s a s2 hss => phase2Step_inv (relFun (buildRel tables))
      (layoutFuel tables) s a s2 hss)
    tables st1 st2 h2 hinv1
  have hcov := phase2_covers (relFun (buildRel tables)) (layoutFuel tables)
    tables st1 st2 h2 hinv1
  refine ⟨st2.levels, ?_, fun t ht => ?_⟩
  · simp only [computeLevels, h1, h2]
  · have := (hinv2 t.name).mp (hcov t ht)
    rcases this with h3 | h3
    · exact h3
    · cases h3

/-! ### Node and edge bookkeeping -/

theorem enumFrom_map_snd {α β : Type} (f : α → β) :
    ∀ (i : Nat) (l : List α),
      (List.enumFrom i l).map (fun q => f q.2) = l.map f := by
  intro i l
  induction l generalizing i with
  | nil => rfl
  | cons x xs ih => simp [List.enumFrom, ih]

theorem enum_map_snd {α β : Type} (f : α → β) (l : List α) :
    l.enum.map (fun q => f q.2) = l.map f :=
  enumFrom_map_snd f 0 l

theorem enumFrom_flatMap_snd {α β : Type} (g : α → List β) :
    ∀ (i : Nat) (l : List α),
      (List.enumFrom i l).flatMap (fun q => g q.2) = l.flatMap g := by
  intro i l
  induction l generalizing i with
  | nil => rfl
  | cons x xs ih => simp [List.enumFrom, List.flatMap_cons, ih]

theorem enum_flatMap_snd {α β : Type} (g : α → List β) (l : List α) :
    l.enum.flatMap (fun q => g q.2) = l.flatMap g :=
  enumFrom_flatMap_snd g 0 l

/-- Splitting a list by a complete, duplicate-free key list is a
permutation of the list. -/
theorem keys_partition_perm (f : SchemaTable → Nat) :
    ∀ (keys : List Nat), keys.Nodup →
      ∀ l : List SchemaTable, (∀ t ∈ l, f t ∈ keys) →
      (keys.flatMap (fun k => l.filter (fun t => f t == k))).Perm l := by
  intro keys
  induction keys with
  | nil =>
      intro _ l hcov
      cases l with
      | nil => simp
      | cons t ts =>
          exact absurd (hcov t (List.mem_cons_self t ts))
            (List.not_mem_nil _)
  | cons k ks ih =>
      intro hnd l hcov
      have hknotin : k ∉ ks := (List.nodup_cons.mp hnd).1
      have hksnd : ks.Nodup := (List.nodup_cons.mp hnd).2
      rw [List.flatMap_cons]
      have hre : ks.flatMap (fun k2 => l.filter (fun t => f t == k2)) =
          ks.flatMap (fun k2 =>
            (l.filter (fun t => !(f t == k))).filter
              (fun t => f t == k2)) := by
        refine List.flatMap_congr fun k2 hk2 => ?_
        rw [List.filter_filter]
        refine (List.filter_congr fun t ht => ?_).symm
        by_cases he : f t = k2
        · have hk2k : ¬k2 = k := fun hc => hknotin (hc ▸ hk2)
          have hne : ¬f t = k := fun hc => hk2k (he ▸ hc)
          simp [he, hk2k, hne]
        · simp [he]
      rw [hre]
      have hcov2 : ∀ t ∈ l.filter (fun t => !(f t == k)), f t ∈ ks := by
        intro t ht
        have hmem := (List.mem_filter.mp ht).1
        have hneq : f t ≠ k := by
          have := (List.mem_filter.mp ht).2
          simpa using this
        rcases List.mem_cons.mp (hcov t hmem) with h2 | h2
        · exact absurd h2 hneq
        · exact h2
      have hperm2 := ih hksnd (l.filter (fun t => !(f t == k))) hcov2
      exact (hperm2.append_left (l.filter (fun t => f t == k))).trans
        (List.filter_append_perm (fun t => f t == k) l)

theorem natSetAdd_nodup {ks : List Nat} (h : ks.Nodup) (x : Nat) :
    (natSetAdd ks x).Nodup := by
  unfold natSetAdd
  by_cases hx : x ∈ ks
  · rw [if_pos hx]; exact h
  · rw [if_neg hx]
    simp [List.nodup_append, h, hx]

theorem natSetAdd_mem_mono {ks : List Nat} {y : Nat} (h : y ∈ ks)
    (x : Nat) : y ∈ natSetAdd ks x := by
  unfold natSetAdd
  by_cases hx : x ∈ ks
  · rw [if_pos hx]; exact h
  · rw [if_neg hx]; exact List.mem_append_left _ h

theorem natSetAdd_mem_self (ks : List Nat) (x : Nat) :
    x ∈ natSetAdd ks x := by
  unfold natSetAdd
  by_cases hx : x ∈ ks
  · rw [if_pos hx]; exact hx
  · rw [if_neg hx]
    exact List.mem_append_right _ (List.mem_singleton_self x)

theorem foldl_natSetAdd_nodup (g : SchemaTable → Nat) :
    ∀ (l : List SchemaTable) (ks : List Nat), ks.Nodup →
      (l.foldl (fun ks t => natSetAdd ks (g t)) ks).Nodup := by
  intro l
  induction l with
  | nil => intro ks h; exact h
  | cons t ts ih =>
      intro ks h
      rw [List.foldl_cons]
      exact ih (natSetAdd ks (g t)) (natSetAdd_nodup h (g t))

theorem foldl_natSetAdd_mem_mono (g : SchemaTable → Nat) :
    ∀ (l : List SchemaTable) (ks : List Nat) (y : Nat), y ∈ ks →
      y ∈ l.foldl (fun ks t => natSetAdd ks (g t)) ks := by
  intro l
  induction l with
  | nil => intro ks y h; exact h
  | cons t ts ih =>
      intro ks y h
      rw [List.foldl_cons]
      exact ih (natSetAdd ks (g t)) y (natSetAdd_mem_mono h (g t))

theorem foldl_natSetAdd_covers (g : SchemaTable → Nat) :
    ∀ (l : List SchemaTable) (ks : List Nat) (t : SchemaTable), t ∈ l →
      g t ∈ l.foldl (fun ks t => natSetAdd ks (g t)) ks := by
  intro l
  induction l with
  | nil => intro ks t h; cases h
  | cons t0 ts ih =>
      intro ks t h
      rw [List.foldl_cons]
      cases h with
      | head =>
          exact foldl_natSetAdd_mem_mono g ts (natSetAdd ks (g t0)) (g t0)
            (natSetAdd_mem_self ks (g t0))
      | tail _ hmem => exact ih (natSetAdd ks (g t0)) t hmem

theorem levelKeys_nodup (tables : List SchemaTable) (lvl : String → Nat) :
    (levelKeys tables lvl).Nodup :=
  foldl_natSetAdd_nodup (fun t => lvl t.name) tables [] List.nodup_nil

theorem levelKeys_covers (tables : List SchemaTable) (lvl : String → Nat) :
    ∀ t ∈ tables, lvl t.name ∈ levelKeys tables lvl :=
  fun t ht => foldl_natSetAdd_covers (fun t => lvl t.name) tables [] t ht

theorem sortedLevels_nodup (tables : List SchemaTable)
    (lvl : String → Nat) : (sortedLevels tables lvl).Nodup :=
  ((List.perm_insertionSort _ (levelKeys tables lvl)).nodup_iff).mpr
    (levelKeys_nodup tables lvl)

theorem sortedLevels_covers (tables : List SchemaTable)
    (lvl : String → Nat) :
    ∀ t ∈ tables, lvl t.name ∈ sortedLevels tables lvl :=
  fun t ht =>
    ((List.perm_insertionSort _ (levelKeys tables lvl)).mem_iff).mpr
      (levelKeys_covers tables lvl t ht)

/-- The multiset of node identifiers equals the multiset of table names.
(Shared by the claim C3 and C9 theorems.) -/
theorem nodesOf_ids_perm (tables : List SchemaTable)
    (lvls : List (String × Nat)) :
    ((nodesOf tables lvls).map (fun n => n.id)).Perm
      (tables.map (fun t => t.name)) := by
  have h1 : (nodesOf tables lvls).map (fun n => n.id) =
      ((sortedLevels tables (levelOfName lvls)).flatMap
        (fun lv => groupOf tables (levelOfName lvls) lv)).map
          (fun t => t.name) := by
    unfold nodesOf
    rw [List.map_flatMap, List.map_flatMap]
    have hinner : ∀ li : Nat × Nat,
        ((groupOf tables (levelOfName lvls) li.2).enum.map
          (fun ti => mkNode li.1
            (groupOf tables (levelOfName lvls) li.2).length
            ti.1 ti.2)).map (fun n => n.id) =
        (groupOf tables (levelOfName lvls) li.2).map
          (fun t => t.name) := by
      intro li
      rw [List.map_map]
      calc ((groupOf tables (levelOfName lvls) li.2).enum.map
            ((fun n => n.id) ∘ (fun ti => mkNode li.1
              (groupOf tables (levelOfName lvls) li.2).length ti.1 ti.2)))
          = (groupOf tables (levelOfName lvls) li.2).enum.map
              (fun q => q.2.name) :=
            List.map_congr_left (fun q _ => rfl)
        _ = (groupOf tables (levelOfName lvls) li.2).map
              (fun t => t.name) := enum_map_snd _ _
    calc (sortedLevels tables (levelOfName lvls)).enum.flatMap
          (fun li => ((groupOf tables (levelOfName lvls) li.2).enum.map
            (fun ti => mkNode li.1
              (groupOf tables (levelOfName lvls) li.2).length
              ti.1 ti.2)).map (fun n => n.id))
        = (sortedLevels tables (levelOfName lvls)).enum.flatMap
            (fun li => (groupOf tables (levelOfName lvls) li.2).map
              (fun t => t.name)) :=
          List.flatMap_congr (fun li _ => hinner li)
      _ = (sortedLevels tables (levelOfName lvls)).flatMap
            (fun lv => (groupOf tables (levelOfName lvls) lv).map
              (fun t => t.name)) :=
          enum_flatMap_snd
            (fun lv => (groupOf tables (levelOfName lvls) lv).map
              (fun t => t.name))
            (sortedLevels tables (levelOfName lvls))
  rw [h1]
  refine List.Perm.map _ ?_
  exact keys_partition_perm (fun t => levelOfName lvls t.name)
    (sortedLevels tables (levelOfName lvls))
    (sortedLevels_nodup tables (levelOfName lvls)) tables
    (fun t ht => sortedLevels_covers tables (levelOfName lvls) t ht)

/-- Edge endpoints are exactly one `(owner, referenced)` pair per foreign
key, in source order. -/
theorem edgesOf_endpoints (tables : List SchemaTable) :
    (edgesOf tables).map (fun e => (e.source, e.target)) =
      tables.flatMap (fun t => t.foreignKeys.map
        (fun fk => (t.name, fk.table))) := by
  unfold edgesOf
  rw [List.map_flatMap]
  refine List.flatMap_congr fun t ht => ?_
  rw [List.map_map]
  exact List.map_congr_left (fun fk _ => rfl)

theorem edgesOf_length (tables : List SchemaTable) :
    (edgesOf tables).length =
      (tables.map (fun t => t.foreignKeys.length)).sum := by
  unfold edgesOf
  rw [List.length_flatMap]
  refine congrArg List.sum ?_
  exact List.map_congr_left (fun t _ => by simp)

/-- A concrete table with a foreign key to `tblB` (cyclic pair). -/
def nameA : String := "a"

/-- A concrete table name. -/
def nameB : String := "b"

/-- Concrete table: `a` references `b`. -/
def tblA : SchemaTable :=
  { name := nameA, columns := [],
    foreignKeys := [{ «from» := colId, table := nameB, «to» := colId }],
    indexes := [] }

/-- Concrete table: `b` references `a` — together with `tblA` a
foreign-key cycle. -/
def tblB : SchemaTable :=
  { name := nameB, columns := [],
    foreignKeys := [{ «from» := colId, table := nameA, «to» := colId }],
    indexes := [] }

/-- Claim C3: for every finite table list — cycles, self-references and
dangling foreign keys included — the layout computation succeeds (the
explicit fuel, standing for the visited-set bound of the JS recursion, is
never exhausted), every input table is assigned a level, and every input
table receives a node (hence a position). -/
theorem calculateLayout_terminates_and_covers (tables : List SchemaTable) :
    ∃ lvls nodes edges,
      computeLevels tables = some lvls ∧
      calculateLayout tables = some (nodes, edges) ∧
      (∀ t ∈ tables, t.name ∈ keysOf lvls) ∧
      (∀ t ∈ tables, ∃ nd ∈ nodes, nd.id = t.name) := by
  obtain ⟨lvls, hlv, hcov⟩ := computeLevels_covers tables
  refine ⟨lvls, nodesOf tables lvls, edgesOf tables, hlv, ?_, hcov, ?_⟩
  · unfold calculateLayout
    rw [hlv]
  · intro t ht
    have hmem : t.name ∈ (nodesOf tables lvls).map (fun n => n.id) :=
      ((nodesOf_ids_perm tables lvls).mem_iff).mpr
        (List.mem_map_of_mem _ ht)
    obtain ⟨nd, hnd, hid⟩ := List.mem_map.mp hmem
    exact ⟨nd, hnd, hid⟩

/-- Witness for C3 on a two-table foreign-key cycle. -/
theorem calculateLayout_terminates_and_covers_witness :
    ∃ lvls nodes edges,
      computeLevels [tblA, tblB] = some lvls ∧
      calculateLayout [tblA, tblB] = some (nodes, edges) ∧
      (∀ t ∈ [tblA, tblB], t.name ∈ keysOf lvls) ∧
      (∀ t ∈ [tblA, tblB], ∃ nd ∈ nodes, nd.id = t.name) :=
  calculateLayout_terminates_and_covers [tblA, tblB]

/-- Claim C9: the layout returns exactly one node per input table (the node
id multiset is a permutation of the table-name multiset) and exactly one
edge per foreign key, with the owning table as source and the referenced
table as target, none dropped or duplicated. -/
theorem calculateLayout_nodes_edges_exact (tables : List SchemaTable) :
    ∃ nodes edges,
      calculateLayout tables = some (nodes, edges) ∧
      (nodes.map (fun n => n.id)).Perm (tables.map (fun t => t.name)) ∧
      nodes.length = tables.length ∧
      edges.map (fun e => (e.source, e.target)) =
        tables.flatMap (fun t => t.foreignKeys.map
          (fun fk => (t.name, fk.table))) ∧
      edges.length = (tables.map (fun t => t.foreignKeys.length)).sum := by
  obtain ⟨lvls, hlv, _⟩ := computeLevels_covers tables
  refine ⟨nodesOf tables lvls, edgesOf tables, ?_,
    nodesOf_ids_perm tables lvls, ?_, edgesOf_endpoints tables,
    edgesOf_length tables⟩
  · unfold calculateLayout
    rw [hlv]
  · have hlen := (nodesOf_ids_perm tables lvls).length_eq
    simpa using hlen

/-- Witness for C9 on the two-table cycle. -/
theorem calculateLayout_nodes_edges_exact_witness :
    ∃ nodes edges,
      calculateLayout [tblA, tblB] = some (nodes, edges) ∧
      (nodes.map (fun n => n.id)).Perm
        ([tblA, tblB].map (fun t => t.name)) ∧
      nodes.length = [tblA, tblB].length ∧
      edges.map (fun e => (e.source, e.target)) =
        [tblA, tblB].flatMap (fun t => t.foreignKeys.map
          (fun fk => (t.name, fk.table))) ∧
      edges.length =
        ([tblA, tblB].map (fun t => t.foreignKeys.length)).sum :=
  calculateLayout_nodes_edges_exact [tblA, tblB]

/-! ### The second `calculateLayout` copy (lines 607-726, claim C10)

Textual differences from the first copy: `calculateLevel`'s loop does not
bind the recursive call's return value (the first copy binds it to the dead
`refLevel` constant), node data carries the extra `onEdit` callback, and
the edge style uses white instead of purple.  Everything else — the
relationships map, grouping, sorting and positions — is textually
identical, so those helpers are shared. -/

/-- Node payload of the second copy: the extra `onEdit` callback is kept
abstract as a value of type `ε`. -/
structure TableNodeData2 (ε : Type) where
  name : String
  columns : List ColumnInfo
  foreignKeys : List ForeignKeyInfo
  indexes : List IndexInfo
  onEdit : ε

/-- React-flow node of the second copy. -/
structure LNode2 (ε : Type) where
  id : String
  ntype : String
  position : Int × Int
  data : TableNodeData2 ε

/-- Embedding of the second copy's `calculateLevel` (lines 631-648); the
only textual difference from `calcLevel` is the absent dead binding. -/
def calcLevel2 (rel : String → List String) :
    Nat → LvSt → String → Nat → Option (LvSt × Nat)
  | 0, _, _, _ => none
  | fuel + 1, st, t, c =>
    if t ∈ st.visited then some (st, lookupD st.levels t 0)
    else
      let step : Option LvSt → String → Option LvSt := fun ost r =>
        match ost with
        | none => none
        | some s =>
          if r ∈ s.visited then some s
          else
            match calcLevel2 rel fuel s r (c + 1) with
            | none => none
            | some (s2, _) => some s2
      match (rel t).foldl step (some ⟨st.visited ++ [t], st.levels⟩) with
      | none => none
      | some st2 => some (⟨st2.visited, st2.levels ++ [(t, c)]⟩, c)

/-- The loop body of `calcLevel2` as a named function. -/
def calcStep2 (rel : String → List String) (fuel : Nat) (c : Nat)
    (ost : Option LvSt) (r : String) : Option LvSt :=
  match ost with
  | none => none
  | some s =>
    if r ∈ s.visited then some s
    else
      match calcLevel2 rel fuel s r (c + 1) with
      | none => none
      | some (s2, _) => some s2

theorem calcLevel2_succ (rel : String → List String) (fuel : Nat)
    (st : LvSt) (t : String) (c : Nat) :
    calcLevel2 rel (fuel + 1) st t c =
      if t ∈ st.visited then some (st, lookupD st.levels t 0)
      else
        match (rel t).foldl (calcStep2 rel fuel c)
            (some ⟨st.visited ++ [t], st.levels⟩) with
        | none => none
        | some st2 => some (⟨st2.visited, st2.levels ++ [(t, c)]⟩, c) :=
  rfl

theorem foldl_fun_congr {α β : Type} (f g : β → α → β)
    (h : ∀ b a, f b a = g b a) :
    ∀ (l : List α) (b : β), l.foldl f b = l.foldl g b := by
  intro l
  induction l with
  | nil => intro b; rfl
  | cons a as ih =>
      intro b
      rw [List.foldl_cons, List.foldl_cons, h b a]
      exact ih (g b a)

/-- The two copies compute the same level recursion. -/
theorem calcLevel2_eq (rel : String → List String) :
    ∀ (fuel : Nat) (st : LvSt) (t : String) (c : Nat),
      calcLevel2 rel fuel st t c = calcLevel rel fuel st t c := by
  intro fuel
  induction fuel with
  | zero => intro st t c; rfl
  | succ fuel ih =>
      intro st t c
      rw [calcLevel_succ, calcLevel2_succ]
      by_cases ht : t ∈ st.visited
      · rw [if_pos ht, if_pos ht]
      · rw [if_neg ht, if_neg ht]
        have hstep : ∀ ost r, calcStep2 rel fuel c ost r =
            calcStep rel fuel c ost r := by
          intro ost r
          cases ost with
          | none => rfl
          | some s =>
              by_cases hr : r ∈ s.visited
              · simp [calcStep, calcStep2, hr]
              · simp [calcStep, calcStep2, hr, ih s r (c + 1)]
        rw [foldl_fun_congr (calcStep2 rel fuel c) (calcStep rel fuel c)
          hstep]

/-- Second copy's top-level level call. -/
def runCalc2 (rel : String → List String) (fuel : Nat) (st : LvSt)
    (t : String) : Option LvSt :=
  (calcLevel2 rel fuel st t 0).map Prod.fst

/-- Second copy's first seeding phase. -/
def phase1Step2 (rel : String → List String) (fuel : Nat) (st : LvSt)
    (t : SchemaTable) : Option LvSt :=
  if (rel t.name).length = 0 then runCalc2 rel fuel st t.name else some st

/-- Second copy's second seeding phase. -/
def phase2Step2 (rel : String → List String) (fuel : Nat) (st : LvSt)
    (t : SchemaTable) : Option LvSt :=
  if (st.levels.lookup t.name).isSome then some st
  else runCalc2 rel fuel st t.name

/-- Second copy's levels map. -/
def computeLevels2 (tables : List SchemaTable) :
    Option (List (String × Nat)) :=
  match runPhase (phase1Step2 (relFun (buildRel tables))
      (layoutFuel tables)) tables ⟨[], []⟩ with
  | none => none
  | some st1 =>
    match runPhase (phase2Step2 (relFun (buildRel tables))
        (layoutFuel tables)) tables st1 with
    | none => none
    | some st2 => some st2.levels

theorem runPhase_congr (step1 step2 : LvSt → SchemaTable → Option LvSt)
    (h : ∀ st t, step1 st t = step2 st t) :
    ∀ (ts : List SchemaTable) (st : LvSt),
      runPhase step1 ts st = runPhase step2 ts st := by
  intro ts
  induction ts with
  | nil => intro st; rfl
  | cons t ts2 ih =>
      intro st
      rw [runPhase, runPhase, h st t]
      cases step2 st t with
      | none => rfl
      | some st1 => exact ih st1

/-- The two copies compute identical level assignments. -/
theorem computeLevels2_eq (tables : List SchemaTable) :
    computeLevels2 tables = computeLevels tables := by
  have hrc : ∀ (rel : String → List String) (fuel : Nat) (st : LvSt)
      (t : String), runCalc2 rel fuel st t = runCalc rel fuel st t := by
    intro rel fuel st t
    unfold runCalc2 runCalc
    rw [calcLevel2_eq]
  have hp1 : ∀ st t, phase1Step2 (relFun (buildRel tables))
      (layoutFuel tables) st t =
      phase1Step (relFun (buildRel tables)) (layoutFuel tables) st t := by
    intro st t
    unfold phase1Step2 phase1Step
    by_cases hc : (relFun (buildRel tables) t.name).length = 0
    · rw [if_pos hc, if_pos hc, hrc]
    · rw [if_neg hc, if_neg hc]
  have hp2 : ∀ st t, phase2Step2 (relFun (buildRel tables))
      (layoutFuel tables) st t =
      phase2Step (relFun (buildRel tables)) (layoutFuel tables) st t := by
    intro st t
    by_cases hc : ((st.levels.lookup t.name).isSome : Prop)
    · unfold phase2Step2 phase2Step
      rw [if_pos hc, if_pos hc]
    · unfold phase2Step2 phase2Step
      rw [if_neg hc, if_neg hc, hrc]
  unfold computeLevels2 computeLevels
  rw [runPhase_congr _ _ hp1 tables ⟨[], []⟩]
  simp only [runPhase_congr _ _ hp2]

/-- Node construction of the second copy (lines 687-703): same id, type and
position, plus the `onEdit` callback in the payload. -/
def mkNode2 {ε : Type} (onEdit : ε) (levelIndex : Nat) (groupSize : Nat)
    (tableIndex : Nat) (t : SchemaTable) : LNode2 ε :=
  let levelWidth : Int := (groupSize : Int) * (nodeWidth + horizontalGap)
  let startX : Int := -(levelWidth / 2) + nodeWidth / 2
  { id := t.name
    ntype := tableNodeStr
    position :=
      (startX + (tableIndex : Int) * (nodeWidth + horizontalGap),
        (levelIndex : Int) * (nodeHeight + verticalGap))
    data := { name := t.name, columns := t.columns,
              foreignKeys := t.foreignKeys, indexes := t.indexes,
              onEdit := onEdit } }

/-- Edge construction of the second copy (lines 707-723): identical
endpoints and labels, white styling. -/
def mkEdge2 (t : SchemaTable) (fk : ForeignKeyInfo) : LEdge :=
  { id := t.name ++ dashStr ++ fk.«from» ++ dashStr ++ fk.table ++
      dashStr ++ fk.«to»
    source := t.name
    sourceHandle := t.name ++ dashStr ++ fk.«from» ++ sourceSuffix
    target := fk.table
    targetHandle := fk.table ++ dashStr ++ fk.«to» ++ targetSuffix
    etype := smoothstepStr
    animated := true
    strokeColor := strokeWhite
    label := fk.«from»
    labelFill := strokeWhite }

/-- Node list of the second copy. -/
def nodesOf2 {ε : Type} (onEdit : ε) (tables : List SchemaTable)
    (lvls : List (String × Nat)) : List (LNode2 ε) :=
  (sortedLevels tables (levelOfName lvls)).enum.flatMap (fun li =>
    (groupOf tables (levelOfName lvls) li.2).enum.map (fun ti =>
      mkNode2 onEdit li.1 (groupOf tables (levelOfName lvls) li.2).length
        ti.1 ti.2))

/-- Edge list of the second copy. -/
def edgesOf2 (tables : List SchemaTable) : List LEdge :=
  tables.flatMap (fun t => t.foreignKeys.map (fun fk => mkEdge2 t fk))

/-- Embedding of the second `calculateLayout` copy. -/
def calculateLayout2 {ε : Type} (tables : List SchemaTable) (onEdit : ε) :
    Option (List (LNode2 ε) × List LEdge) :=
  match computeLevels2 tables with
  | none => none
  | some lvls => some (nodesOf2 onEdit tables lvls, edgesOf2 tables)

/-- Structural content of a first-copy node. -/
def nodeCore (n : LNode) :
    String × String × (Int × Int) × String × List ColumnInfo ×
      List ForeignKeyInfo × List IndexInfo :=
  (n.id, n.ntype, n.position, n.data.name, n.data.columns,
    n.data.foreignKeys, n.data.indexes)

/-- Structural content of a second-copy node (`onEdit` dropped). -/
def node2Core {ε : Type} (n : LNode2 ε) :
    String × String × (Int × Int) × String × List ColumnInfo ×
      List ForeignKeyInfo × List IndexInfo :=
  (n.id, n.ntype, n.position, n.data.name, n.data.columns,
    n.data.foreignKeys, n.data.indexes)

/-- Structural content of an edge (styling dropped). -/
def edgeCore (e : LEdge) :
    String × String × String × String × String × String × Bool ×
      String :=
  (e.id, e.source, e.sourceHandle, e.target, e.targetHandle, e.etype,
    e.animated, e.label)

/-- Claim C10: both copies succeed on every input, compute identical level
assignments, identical node ids, positions and payloads, and identical
edge endpoints and handles; they differ only in the extra `onEdit` field
of node data and in the edge styling (purple in the first copy, white in
the second). -/
theorem calculateLayout_copies_equivalent {ε : Type} (onEdit : ε)
    (tables : List SchemaTable) :
    ∃ ns es ns2 es2,
      calculateLayout tables = some (ns, es) ∧
      calculateLayout2 tables onEdit = some (ns2, es2) ∧
      computeLevels2 tables = computeLevels tables ∧
      ns2.map node2Core = ns.map nodeCore ∧
      (∀ n ∈ ns2, n.data.onEdit = onEdit) ∧
      es2.map edgeCore = es.map edgeCore ∧
      (∀ e ∈ es, e.strokeColor = strokePurple ∧
        e.labelFill = strokePurple) ∧
      (∀ e ∈ es2, e.strokeColor = strokeWhite ∧
        e.labelFill = strokeWhite) := by
  obtain ⟨lvls, hlv, _⟩ := computeLevels_covers tables
  have hq := computeLevels2_eq tables
  refine ⟨nodesOf tables lvls, edgesOf tables, nodesOf2 onEdit tables lvls,
    edgesOf2 tables, ?_, ?_, hq, ?_, ?_, ?_, ?_, ?_⟩
  · unfold calculateLayout
    rw [hlv]
  · unfold calculateLayout2
    rw [hq, hlv]
  · unfold nodesOf nodesOf2
    rw [List.map_flatMap, List.map_flatMap]
    refine List.flatMap_congr fun li hli => ?_
    rw [List.map_map, List.map_map]
    exact List.map_congr_left (fun ti _ => rfl)
  · intro n hn
    unfold nodesOf2 at hn
    obtain ⟨li, hli, hn2⟩ := List.mem_flatMap.mp hn
    obtain ⟨ti, hti, he⟩ := List.mem_map.mp hn2
    rw [← he]
    rfl
  · unfold edgesOf edgesOf2
    rw [List.map_flatMap, List.map_flatMap]
    refine List.flatMap_congr fun t ht => ?_
    rw [List.map_map, List.map_map]
    exact List.map_congr_left (fun fk _ => rfl)
  · intro e he
    unfold edgesOf at he
    obtain ⟨t, ht, he2⟩ := List.mem_flatMap.mp he
    obtain ⟨fk, hfk, he3⟩ := List.mem_map.mp he2
    rw [← he3]
    exact ⟨rfl, rfl⟩
  · intro e he
    unfold edgesOf2 at he
    obtain ⟨t, ht, he2⟩ := List.mem_flatMap.mp he
    obtain ⟨fk, hfk, he3⟩ := List.mem_map.mp he2
    rw [← he3]
    exact ⟨rfl, rfl⟩

/-- Witness for C10 on the two-table cycle with a trivial callback. -/
theorem calculateLayout_copies_equivalent_witness :
    ∃ ns es ns2 es2,
      calculateLayout [tblA, tblB] = some (ns, es) ∧
      calculateLayout2 [tblA, tblB] () = some (ns2, es2) ∧
      computeLevels2 [tblA, tblB] = computeLevels [tblA, tblB] ∧
      ns2.map node2Core = ns.map nodeCore ∧
      (∀ n ∈ ns2, n.data.onEdit = ()) ∧
      es2.map edgeCore = es.map edgeCore ∧
      (∀ e ∈ es, e.strokeColor = strokePurple ∧
        e.labelFill = strokePurple) ∧
      (∀ e ∈ es2, e.strokeColor = strokeWhite ∧
        e.labelFill = strokeWhite) :=
  @calculateLayout_copies_equivalent Unit () [tblA, tblB]

/-! ## SchemaVisualizer load effect (claim C2)

Lines 207-268 of the first SchemaVisualizer component: the effect reruns
whenever `tableKey` (the sorted, comma-joined table names) changes, but its
body starts with

  if (hasLoaded && schemaData.length === tables.length) return;

which compares only the table count, not the table identities. -/

/-- Cached state of the visualizer component: `hasLoaded`, `schemaData`,
and the node/edge layout state. -/
structure VizCache where
  hasLoaded : Bool
  schemaData : List SchemaTable
  nodes : List LNode
  edges : List LEdge
deriving DecidableEq

/-- `tables.map(t => t.name).sort().join(',')` (lines 207-210). -/
def tableKey (tables : List TableInfo) : String :=
  joinComma ((tables.map (fun t => t.name)).insertionSort
    (fun a b => a ≤ b))

/-- The per-table schema fetch of `loadSchema` (lines 226-239). -/
def schemaOf (getCols : String → List ColumnInfo)
    (getFks : String → List ForeignKeyInfo)
    (getIdx : String → List IndexInfo) (tables : List TableInfo) :
    List SchemaTable :=
  tables.map (fun t =>
    { name := t.name, columns := getCols t.name,
      foreignKeys := getFks t.name, indexes := getIdx t.name })

/-- One run of the load effect body (lines 213-268): the guard keeps the
cache when the count matches; otherwise the schema is refetched and the
layout recomputed. -/
def loadEffect (getCols : String → List ColumnInfo)
    (getFks : String → List ForeignKeyInfo)
    (getIdx : String → List IndexInfo) (tables : List TableInfo)
    (st : VizCache) : Option VizCache :=
  if st.hasLoaded && st.schemaData.length == tables.length then some st
  else
    match calculateLayout (schemaOf getCols getFks getIdx tables) with
    | none => none
    | some p =>
        some { hasLoaded := true,
               schemaData := schemaOf getCols getFks getIdx tables,
               nodes := p.1, edges := p.2 }

/-- Empty catalog accessors for the concrete scenario. -/
def noCols : String → List ColumnInfo := fun _ => []

/-- Empty catalog accessors for the concrete scenario. -/
def noFks : String → List ForeignKeyInfo := fun _ => []

/-- Empty catalog accessors for the concrete scenario. -/
def noIdx : String → List IndexInfo := fun _ => []

/-- Table-list entry named `a`. -/
def tiA : TableInfo := { name := nameA }

/-- Table-list entry named `b`. -/
def tiB : TableInfo := { name := nameB }

/-- Initial visualizer state. -/
def st0 : VizCache :=
  { hasLoaded := false, schemaData := [], nodes := [], edges := [] }

/-- Claim C2 is violated by the code: after loading table list `[a]`, a
refresh that replaces the catalog by `[b]` changes `tableKey` (so the
effect reruns), yet the count-only guard returns early and the cached
layout still shows the node for `a` — the derived data is not invalidated
even though the table set changed. -/
theorem schemaVisualizer_stale_cache_on_rename :
    tableKey [tiA] ≠ tableKey [tiB] ∧
    (loadEffect noCols noFks noIdx [tiA] st0).bind
        (loadEffect noCols noFks noIdx [tiB]) =
      loadEffect noCols noFks noIdx [tiA] st0 ∧
    (loadEffect noCols noFks noIdx [tiA] st0).map
        (fun st => st.nodes.map (fun n => n.id)) = some [nameA] := by
  refine ⟨by decide, by decide, by decide⟩

end LiteDB
